import Mathlib

/-!
Verification of the pink-agent repository (Python) against its
natural-language specification.

The Python sources are shallowly embedded: a Python `str` is modelled as a
`List Char` (a Python string is a sequence of code points), a file that may
be absent is an `Option (List Char)` (`none` = the file does not exist),
and library calls whose failure the code observes (`json.loads`, attribute
errors on non-dict values, ...) are modelled in the `Option` monad, `none`
standing for a raised exception that the caller catches.
-/

namespace PinkAgent

/-! ## Python string primitives

`pyIsWS` models membership in the ASCII whitespace class stripped by
Python's `str.strip` / `str.lstrip` / `str.rstrip` (the Unicode cases do
not occur in this code base's data). -/

def pyIsWS (c : Char) : Bool := c = ' ' || c = '\t' || c = '\n' || c = '\r'

/-- Python `s.lstrip()`. -/
def pyLstrip (s : List Char) : List Char := s.dropWhile pyIsWS

/-- Python `s.rstrip()`. -/
def pyRstrip (s : List Char) : List Char := (s.reverse.dropWhile pyIsWS).reverse

/-- Python `s.strip()` (equivalently `lstrip` after `rstrip`). -/
def pyStrip (s : List Char) : List Char := pyLstrip (pyRstrip s)

/-! ## `queue/storage.py` -/

/-- Helper for `pyReadlines`: `acc` holds the (reversed) characters of the
current, not yet terminated line. -/
def readlinesAux : List Char → List Char → List (List Char)
  | [], acc => if acc = [] then [] else [acc.reverse]
  | c :: rest, acc =>
    if c = '\n' then (acc.reverse ++ ['\n']) :: readlinesAux rest []
    else readlinesAux rest (c :: acc)

/-- Python `f.readlines()`: split after every newline, keeping the
terminators; a final unterminated line is kept, an empty tail is not. -/
def pyReadlines (s : List Char) : List (List Char) := readlinesAux s []

/-- The body of the rewrite loop of `_delete_first_entry`
(`queue/storage.py` lines 115-121): for each remaining line, strip it and
write it back followed by a single newline iff it is non-blank. -/
def deleteRewrite : List (List Char) → List Char
  | [] => []
  | l :: rest =>
    (let s := pyStrip l; if s = [] then [] else s ++ ['\n']) ++ deleteRewrite rest

/-- `_delete_first_entry` (`queue/storage.py`): a missing file is left
missing, otherwise all lines are read and every line but the first is
rewritten through the strip-and-filter loop. -/
def deleteFirstEntry : Option (List Char) → Option (List Char)
  | none => none
  | some content => some (deleteRewrite ((pyReadlines content).drop 1))

/-- The scan of `_read_first_entry` (`queue/storage.py` lines 92-97): the
first line whose stripped form is non-blank, returned stripped (the source
then applies `json.loads` to it, which is modelled separately by a decode
oracle where needed). -/
def firstNonBlank : List (List Char) → Option (List Char)
  | [] => none
  | l :: rest => let s := pyStrip l; if s = [] then firstNonBlank rest else some s

/-- `_read_first_entry` (`queue/storage.py`): `none` for a missing file or
a file with no non-blank line. -/
def readFirstEntry : Option (List Char) → Option (List Char)
  | none => none
  | some content => firstNonBlank (pyReadlines content)

/-- Serialisation of a list of entries the way `_append_entry` builds the
file: each entry followed by a single newline. -/
def joinEntries (entries : List (List Char)) : List Char :=
  (entries.map (· ++ ['\n'])).flatten

/-! ### Basic lemmas about the string primitives -/

theorem takeWhile_add_dropWhile_length {p : Char → Bool} (l : List Char) :
    (l.takeWhile p).length + (l.dropWhile p).length = l.length := by
  conv_rhs => rw [← List.takeWhile_append_dropWhile (p := p) (l := l)]
  rw [List.length_append]

theorem pyRstrip_decomp (s : List Char) :
    ∃ w, s = pyRstrip s ++ w ∧ ∀ c ∈ w, pyIsWS c := by
  refine ⟨(s.reverse.takeWhile pyIsWS).reverse, ?_, ?_⟩
  · calc s = s.reverse.reverse := by rw [List.reverse_reverse]
    _ = (s.reverse.takeWhile pyIsWS ++ s.reverse.dropWhile pyIsWS).reverse := by
        rw [List.takeWhile_append_dropWhile]
    _ = (s.reverse.dropWhile pyIsWS).reverse ++ (s.reverse.takeWhile pyIsWS).reverse := by
        rw [List.reverse_append]
    _ = pyRstrip s ++ (s.reverse.takeWhile pyIsWS).reverse := rfl
  · intro c hc
    rw [List.mem_reverse] at hc
    exact List.mem_takeWhile_imp hc

theorem pyLstrip_decomp (s : List Char) :
    ∃ w, s = w ++ pyLstrip s ∧ ∀ c ∈ w, pyIsWS c := by
  refine ⟨s.takeWhile pyIsWS, ?_, ?_⟩
  · rw [pyLstrip, List.takeWhile_append_dropWhile]
  · intro c hc; exact List.mem_takeWhile_imp hc

theorem dropWhile_eq_self_of_length {p : Char → Bool} {l : List Char}
    (h : (l.dropWhile p).length = l.length) : l.dropWhile p = l := by
  have hlen := takeWhile_add_dropWhile_length (p := p) l
  have htw : l.takeWhile p = [] := List.eq_nil_of_length_eq_zero (by omega)
  conv_rhs => rw [← List.takeWhile_append_dropWhile (p := p) (l := l)]
  rw [htw, List.nil_append]

theorem pyLstrip_length_le (s : List Char) : (pyLstrip s).length ≤ s.length := by
  have := takeWhile_add_dropWhile_length (p := pyIsWS) s
  simp only [pyLstrip]
  omega

theorem pyRstrip_length_le (s : List Char) : (pyRstrip s).length ≤ s.length := by
  have := takeWhile_add_dropWhile_length (p := pyIsWS) s.reverse
  simp only [pyRstrip, List.length_reverse] at *
  omega

/-- A string fixed by `pyStrip` is fixed by both one-sided strips. -/
theorem strip_eq_self_parts {s : List Char} (h : pyStrip s = s) :
    pyRstrip s = s ∧ pyLstrip s = s := by
  have h1 : (pyStrip s).length = s.length := by rw [h]
  have h2 : (pyStrip s).length ≤ (pyRstrip s).length := by
    simpa [pyStrip] using pyLstrip_length_le (pyRstrip s)
  have h3 : (pyRstrip s).length ≤ s.length := pyRstrip_length_le s
  have hrlen : (s.reverse.dropWhile pyIsWS).length = s.reverse.length := by
    have e1 : (pyRstrip s).length = (s.reverse.dropWhile pyIsWS).length := by
      simp [pyRstrip]
    have e2 : s.reverse.length = s.length := by simp
    omega
  have hrEq : pyRstrip s = s := by
    have hd := dropWhile_eq_self_of_length hrlen
    simp only [pyRstrip]
    rw [hd, List.reverse_reverse]
  refine ⟨hrEq, ?_⟩
  have hfin := h
  rw [pyStrip, hrEq] at hfin
  exact hfin

theorem pyRstrip_append_newline {s : List Char} (h : pyRstrip s = s) :
    pyRstrip (s ++ ['\n']) = s := by
  have hrev : s.reverse.dropWhile pyIsWS = s.reverse := by
    have := congrArg List.reverse h
    simpa [pyRstrip] using this
  simp only [pyRstrip, List.reverse_append]
  rw [show (['\n'] : List Char).reverse = ['\n'] from rfl]
  rw [List.singleton_append, List.dropWhile_cons]
  simp only [show pyIsWS '\n' = true from rfl, if_true]
  rw [hrev, List.reverse_reverse]

/-- A line that is already stripped and then newline-terminated strips back
to itself. -/
theorem pyStrip_entry_newline {s : List Char} (h : pyStrip s = s) :
    pyStrip (s ++ ['\n']) = s := by
  obtain ⟨hr, hl⟩ := strip_eq_self_parts h
  rw [pyStrip, pyRstrip_append_newline hr, hl]

theorem dropWhile_idem (p : Char → Bool) (l : List Char) :
    (l.dropWhile p).dropWhile p = l.dropWhile p := by
  induction l with
  | nil => simp
  | cons a t ih =>
    by_cases h : p a
    · simp [List.dropWhile_cons, h, ih]
    · simp [List.dropWhile_cons, h]

theorem pyRstrip_idem (l : List Char) : pyRstrip (pyRstrip l) = pyRstrip l := by
  simp only [pyRstrip, List.reverse_reverse]
  rw [dropWhile_idem]

theorem rev_dropWhile_of_rstrip {x : List Char} (hx : pyRstrip x = x) :
    x.reverse.dropWhile pyIsWS = x.reverse := by
  have h := congrArg List.reverse hx
  simpa [pyRstrip] using h

theorem head_not_ws_of_dropWhile_self {l : List Char} (h : l.dropWhile pyIsWS = l) :
    ∀ a t, l = a :: t → pyIsWS a = false := by
  intro a t hl
  subst hl
  by_contra hcon
  have ha : pyIsWS a = true := by revert hcon; cases pyIsWS a <;> simp
  rw [List.dropWhile_cons, ha] at h
  simp only [if_true] at h
  have hlen := takeWhile_add_dropWhile_length (p := pyIsWS) t
  have := congrArg List.length h
  simp at this
  omega

theorem pyRstrip_of_pyLstrip {x : List Char} (hx : pyRstrip x = x) :
    pyRstrip (pyLstrip x) = pyLstrip x := by
  cases e : (pyLstrip x).reverse with
  | nil =>
    have h0 : pyLstrip x = [] := by
      have := congrArg List.reverse e; simpa using this
    rw [h0]; rfl
  | cons a t =>
    obtain ⟨w, hw, _⟩ := pyLstrip_decomp x
    have hxrev : x.reverse = a :: (t ++ w.reverse) := by
      rw [hw, List.reverse_append, e]; rfl
    have hself := rev_dropWhile_of_rstrip hx
    have ha : pyIsWS a = false :=
      head_not_ws_of_dropWhile_self hself a (t ++ w.reverse) hxrev
    simp only [pyRstrip, e, List.dropWhile_cons, ha]
    simp only [Bool.false_eq_true, if_false]
    have := congrArg List.reverse e
    simpa using this.symm

theorem pyStrip_idem (l : List Char) : pyStrip (pyStrip l) = pyStrip l := by
  have hx : pyRstrip (pyRstrip l) = pyRstrip l := pyRstrip_idem l
  show pyLstrip (pyRstrip (pyLstrip (pyRstrip l))) = _
  rw [pyRstrip_of_pyLstrip hx]
  simp only [pyStrip, pyLstrip, dropWhile_idem]

theorem mem_of_mem_pyStrip {c : Char} {l : List Char} (h : c ∈ pyStrip l) : c ∈ l := by
  obtain ⟨w1, hw1, _⟩ := pyLstrip_decomp (pyRstrip l)
  obtain ⟨w2, hw2, _⟩ := pyRstrip_decomp l
  have h1 : c ∈ pyRstrip l := by
    rw [hw1]
    exact List.mem_append_right _ h
  rw [hw2]
  exact List.mem_append_left _ h1

theorem pyRstrip_append_ws {s : List Char} {c : Char} (hc : pyIsWS c) :
    pyRstrip (s ++ [c]) = pyRstrip s := by
  simp only [pyRstrip, List.reverse_append, List.reverse_singleton,
    List.singleton_append, List.dropWhile_cons, hc, if_true]

theorem readlinesAux_shape (s : List Char) :
    ∀ acc, '\n' ∉ acc →
      ∀ l ∈ readlinesAux s acc, ∃ y, '\n' ∉ y ∧ (l = y ++ ['\n'] ∨ l = y) := by
  induction s with
  | nil =>
    intro acc hacc l hl
    simp only [readlinesAux] at hl
    split at hl
    · simp at hl
    · simp at hl
      exact ⟨acc.reverse, by simpa using hacc, Or.inr hl⟩
  | cons c rest ih =>
    intro acc hacc l hl
    simp only [readlinesAux] at hl
    split at hl
    · rcases List.mem_cons.mp hl with h | h
      · exact ⟨acc.reverse, by simpa using hacc, Or.inl h⟩
      · exact ih [] (by simp) l h
    · rename_i hc
      refine ih (c :: acc) ?_ l hl
      intro hmem
      rcases List.mem_cons.mp hmem with h | h
      · exact hc h.symm
      · exact hacc h

theorem pyReadlines_shape {s : List Char} :
    ∀ l ∈ pyReadlines s, ∃ y, '\n' ∉ y ∧ (l = y ++ ['\n'] ∨ l = y) :=
  readlinesAux_shape s [] (by simp)

theorem newline_not_mem_pyStrip_line {l : List Char}
    (h : ∃ y, '\n' ∉ y ∧ (l = y ++ ['\n'] ∨ l = y)) : '\n' ∉ pyStrip l := by
  obtain ⟨y, hy, hcase⟩ := h
  rcases hcase with h1 | h1
  · subst h1
    intro hmem
    rw [pyStrip, pyRstrip_append_ws (by rfl)] at hmem
    exact hy (mem_of_mem_pyStrip hmem)
  · subst h1
    intro hmem
    exact hy (mem_of_mem_pyStrip hmem)

theorem readlinesAux_newline_split (x : List Char) (hx : '\n' ∉ x) :
    ∀ r acc, readlinesAux (x ++ '\n' :: r) acc =
      ((acc.reverse ++ x) ++ ['\n']) :: readlinesAux r [] := by
  induction x with
  | nil => intro r acc; simp [readlinesAux]
  | cons c t ih =>
    intro r acc
    have hc : ¬(c = '\n') := by
      intro h; exact hx (h ▸ List.mem_cons_self c t)
    simp only [List.cons_append, readlinesAux, if_neg hc, List.append_eq]
    rw [ih (fun h => hx (List.mem_cons_of_mem _ h)) r (c :: acc)]
    simp

theorem pyReadlines_entry_cons (e r : List Char) (he : '\n' ∉ e) :
    pyReadlines (e ++ '\n' :: r) = (e ++ ['\n']) :: pyReadlines r := by
  simpa [pyReadlines] using readlinesAux_newline_split e he r []

theorem joinEntries_cons (e : List Char) (rest : List (List Char)) :
    joinEntries (e :: rest) = e ++ '\n' :: joinEntries rest := by
  simp [joinEntries]

theorem pyReadlines_joinEntries (entries : List (List Char))
    (h : ∀ e ∈ entries, '\n' ∉ e) :
    pyReadlines (joinEntries entries) = entries.map (· ++ ['\n']) := by
  induction entries with
  | nil => rfl
  | cons e rest ih =>
    rw [joinEntries_cons, pyReadlines_entry_cons e _ (h e (List.mem_cons_self e rest)),
      ih (fun x hx => h x (List.mem_cons_of_mem _ hx))]
    rfl

theorem deleteRewrite_spec (ls : List (List Char)) :
    deleteRewrite ls = joinEntries ((ls.map pyStrip).filter (fun s => !s.isEmpty)) := by
  induction ls with
  | nil => rfl
  | cons l rest ih =>
    by_cases h : pyStrip l = []
    · simp only [deleteRewrite, h, if_pos rfl, List.nil_append, List.map_cons,
        List.filter_cons, List.isEmpty_nil, Bool.not_true]
      simpa [h] using ih
    · simp only [deleteRewrite, List.map_cons, List.filter_cons]
      rw [if_neg h]
      have hne : (!(pyStrip l).isEmpty) = true := by
        cases e : pyStrip l with
        | nil => exact absurd e h
        | cons a t => rfl
      rw [hne, if_pos rfl, joinEntries_cons, ih]
      simp

theorem deleteRewrite_cons_blank {l : List Char} (hb : pyStrip l = [])
    (rest : List (List Char)) : deleteRewrite (l :: rest) = deleteRewrite rest := by
  simp [deleteRewrite, hb]

theorem deleteRewrite_cons_entry {l : List Char} (hb : pyStrip l ≠ [])
    (rest : List (List Char)) :
    deleteRewrite (l :: rest) = pyStrip l ++ '\n' :: deleteRewrite rest := by
  simp [deleteRewrite, hb]

theorem firstNonBlank_deleteRewrite (ls : List (List Char))
    (h : ∀ l ∈ ls, '\n' ∉ pyStrip l) :
    firstNonBlank (pyReadlines (deleteRewrite ls)) = firstNonBlank ls := by
  induction ls with
  | nil => rfl
  | cons l rest ih
  => by_cases hb : pyStrip l = []
     · rw [deleteRewrite_cons_blank hb]
       rw [ih (fun x hx => h x (List.mem_cons_of_mem _ hx))]
       simp [firstNonBlank, hb]
     · rw [deleteRewrite_cons_entry hb]
       rw [pyReadlines_entry_cons (pyStrip l) _ (h l (List.mem_cons_self l rest))]
       have hstrip : pyStrip (pyStrip l ++ ['\n']) = pyStrip l :=
         pyStrip_entry_newline (pyStrip_idem l)
       simp [firstNonBlank, hstrip, hb]

theorem deleteRewrite_clean (entries : List (List Char))
    (h : ∀ x ∈ entries, pyStrip x = x ∧ x ≠ []) :
    deleteRewrite (entries.map (· ++ ['\n'])) = joinEntries entries := by
  induction entries with
  | nil => rfl
  | cons x rest ih =>
    obtain ⟨hs, hne⟩ := h x (List.mem_cons_self x rest)
    have hsx : pyStrip (x ++ ['\n']) = x := pyStrip_entry_newline hs
    rw [List.map_cons, deleteRewrite_cons_entry (by rw [hsx]; exact hne), hsx,
      ih (fun y hy => h y (List.mem_cons_of_mem _ hy)), joinEntries_cons]

theorem firstNonBlank_mem {ls : List (List Char)} {s : List Char}
    (h : firstNonBlank ls = some s) : s ∈ ls.map pyStrip := by
  induction ls with
  | nil => simp [firstNonBlank] at h
  | cons l rest ih =>
    by_cases hb : pyStrip l = []
    · simp only [firstNonBlank, hb, if_pos rfl] at h
      exact List.mem_cons_of_mem _ (ih h)
    · simp only [firstNonBlank, if_neg hb] at h
      rw [List.map_cons]
      rw [Option.some_inj] at h
      exact h ▸ List.mem_cons_self _ _

/-- C5: `deleteFirst` on a queue file is a no-op on a missing or zero-length
file (and, the model being total, cannot raise), and on a file holding
newline-terminated entries it rewrites the file with the first entry removed,
preserving the order of the remaining entries. -/
theorem c5_delete_first_spec :
    deleteFirstEntry none = none ∧
    deleteFirstEntry (some []) = some [] ∧
    ∀ (e : List Char) (entries : List (List Char)),
      (∀ x ∈ e :: entries, pyStrip x = x ∧ x ≠ [] ∧ '\n' ∉ x) →
      deleteFirstEntry (some (joinEntries (e :: entries))) = some (joinEntries entries) := by
  refine ⟨rfl, rfl, ?_⟩
  intro e entries h
  have hnl : ∀ x ∈ e :: entries, '\n' ∉ x := fun x hx => (h x hx).2.2
  have hrl : pyReadlines (joinEntries (e :: entries)) = (e :: entries).map (· ++ ['\n']) :=
    pyReadlines_joinEntries _ hnl
  simp only [deleteFirstEntry, hrl, List.map_cons, List.drop_succ_cons, List.drop_zero]
  rw [deleteRewrite_clean entries (fun x hx => ⟨(h x (List.mem_cons_of_mem _ hx)).1,
    (h x (List.mem_cons_of_mem _ hx)).2.1⟩)]

/-- C5 witness: on the two-entry file "a\nb\n", deleting the first entry
leaves exactly "b\n". -/
theorem c5_delete_first_spec_witness :
    deleteFirstEntry (some (joinEntries [['a'], ['b']])) = some (joinEntries [['b']]) :=
  c5_delete_first_spec.2.2 ['a'] [['b']] (by decide)

/-- C9: the delete-first rewrite normalizes the file: the result is exactly
the non-blank stripped lines among lines 2..n, in order, each terminated by
a single newline; and when line 1 is blank, only that blank line is
consumed — the entry `readFirst` would have returned is still returned by
`readFirst` after the delete. -/
theorem c9_delete_first_normalizes :
    (∀ content, deleteFirstEntry (some content) =
        some (joinEntries ((((pyReadlines content).drop 1).map pyStrip).filter
          (fun s => !s.isEmpty)))) ∧
    (∀ content b rest, pyReadlines content = b :: rest → pyStrip b = [] →
        readFirstEntry (deleteFirstEntry (some content)) =
          readFirstEntry (some content)) := by
  constructor
  · intro content
    simp only [deleteFirstEntry, deleteRewrite_spec]
  · intro content b rest hread hblank
    have hshape : ∀ l ∈ rest, '\n' ∉ pyStrip l := by
      intro l hl
      refine newline_not_mem_pyStrip_line (pyReadlines_shape (s := content) l ?_)
      rw [hread]
      exact List.mem_cons_of_mem _ hl
    simp only [deleteFirstEntry, readFirstEntry, hread, List.drop_succ_cons, List.drop_zero]
    rw [firstNonBlank_deleteRewrite rest hshape]
    simp [firstNonBlank, hblank]

/-- C9 witness: on the file "\nx\n" (blank first line), delete-first leaves
the entry `x` readable at the head. -/
theorem c9_delete_first_normalizes_witness :
    readFirstEntry (deleteFirstEntry (some ['\n', 'x', '\n'])) =
      readFirstEntry (some ['\n', 'x', '\n']) :=
  c9_delete_first_normalizes.2 ['\n', 'x', '\n'] ['\n'] [['x', '\n']] (by decide) (by decide)

/-! ## `config.py` constants and user-facing messages -/

def AUTO_COMPACT_THRESHOLD : Int := 180000

def MAX_SESSION_CONTEXT : Int := 200000

/-- Python slicing `s[:n]` (by code points). -/
def pyTake (s : String) (n : Nat) : String := String.mk (s.toList.take n)

/-- `MSG_AUTO_COMPACT_NOTIFICATION.format(threshold=AUTO_COMPACT_THRESHOLD//1000)`. -/
def msgAutoCompactNotification : String :=
  "🔄 Auto-compact started (context exceeded " ++ toString (AUTO_COMPACT_THRESHOLD / 1000) ++
    "k tokens).\n\nPlease wait 1-2 minutes, next commands will be processed after completion..."

/-- `MSG_COMPACT_SUCCESS.format(session_id=f"...")` as applied in the worker:
the placeholder receives the first 8 characters of the new session id
followed by "...". -/
def msgCompactSuccess (newSessionId : String) : String :=
  "✅ Auto-compact completed.\n\nNew session: " ++ pyTake newSessionId 8 ++
    "...\nPrevious context saved in summary."

/-- `MSG_COMPACT_FAILED.format(error=str(e))`. -/
def msgCompactFailed (error : String) : String :=
  "❌ Auto-compact failed: " ++ error ++ "\n\nUse /new to create a new session."

/-! ## `claude/processor.py` -/

/-- `_execute_command_subprocess`: the sequence of `(message_id, output)`
entries the worker appends to the responses queue, as a function of the
outcome of `execute_claude` (`Except.error` = the message of the raised
exception) and, on the auto-compact path, of `perform_auto_compact`. -/
def executeCommandSubprocess (messageId : Int)
    (exec : Except String (String × Int × String))
    (compact : Except String String) : List (Int × String) :=
  match exec with
  | .ok (result, sessionContextSize, _sessionId) =>
    (messageId, result) ::
      (if sessionContextSize > AUTO_COMPACT_THRESHOLD then
        (messageId, msgAutoCompactNotification) ::
          (match compact with
           | .ok newSessionId => [(messageId, msgCompactSuccess newSessionId)]
           | .error e => [(messageId, msgCompactFailed e)])
      else [])
  | .error e => [(messageId, "❌ Error: " ++ e)]

structure Cmd where
  messageId : Int
  content : String
deriving DecidableEq

inductive ProcStep where
  | readQ
  | deleteQ
  | spawn (cmd : Cmd)
deriving DecidableEq

/-- One round of `process_command` (`claude/processor.py`): read the first
command; on `None` return; decode failure (`json.loads` or a missing key
raises, caught by the surrounding `try`) also returns with the queue
untouched; otherwise delete the first line and spawn the worker.  `dec`
is the oracle for `json.loads` plus the `command["message_id"]` /
`command["content"]` extraction.  Returns the queue file afterwards, the
claimed command, and the steps performed in order. -/
def process_command (dec : List Char → Option Cmd) (file : Option (List Char)) :
    Option (List Char) × Option Cmd × List ProcStep :=
  match readFirstEntry file with
  | none => (file, none, [ProcStep.readQ])
  | some line =>
    match dec line with
    | none => (file, none, [ProcStep.readQ])
    | some cmd =>
      (deleteFirstEntry file, some cmd,
        [ProcStep.readQ, ProcStep.deleteQ, ProcStep.spawn cmd])

/-- C2: whatever the outcome of the backend invocation (success with any
context size, hence also each auto-compact sub-step, or any raised error),
the worker appends at least one response entry, and every entry it appends
carries the input message id. -/
theorem c2_worker_always_responds (messageId : Int)
    (exec : Except String (String × Int × String)) (compact : Except String String) :
    executeCommandSubprocess messageId exec compact ≠ [] ∧
    ∀ r ∈ executeCommandSubprocess messageId exec compact, r.1 = messageId := by
  constructor
  · cases exec with
    | ok v =>
      obtain ⟨result, rest⟩ := v
      simp [executeCommandSubprocess]
    | error e => simp [executeCommandSubprocess]
  · intro r hr
    cases exec with
    | ok v =>
      obtain ⟨result, ctx, sid⟩ := v
      simp only [executeCommandSubprocess] at hr
      rcases List.mem_cons.mp hr with h | h
      · rw [h]
      · split at h
        · rcases List.mem_cons.mp h with h2 | h2
          · rw [h2]
          · cases compact with
            | ok ns => simp at h2; rw [h2]
            | error e => simp at h2; rw [h2]
        · simp at h
    | error e =>
      simp only [executeCommandSubprocess] at hr
      simp at hr
      rw [hr]

/-- The JSON line used in the C1 counterexample (a valid `json.dumps` output
for `message_id=1, content="hi"`). -/
def jsonLineEx : List Char := "\x7b\"message_id\": 1, \"content\": \"hi\"\x7d".toList

/-- Decode oracle agreeing with `json.loads` plus key extraction on the
inputs appearing in the C1 counterexample. -/
def decEx (l : List Char) : Option Cmd :=
  if l = jsonLineEx then some ⟨1, "hi"⟩ else none

/-- C1 counterexample: on the queue file "\n{json}\n" whose first line is
blank, the claim step claims the command decoded from the first non-blank
line, but `deleteFirst` removes only blank line 1; a crash of the spawned
worker leaves the queue untouched, and the next claim step claims the very
same command from the head of the queue again. -/
theorem c1_claim_step_counterexample :
    (process_command decEx (some ('\n' :: (jsonLineEx ++ ['\n'])))).2.1 =
      some ⟨1, "hi"⟩ ∧
    (process_command decEx
        (process_command decEx (some ('\n' :: (jsonLineEx ++ ['\n'])))).1).2.1 =
      some ⟨1, "hi"⟩ := by
  constructor <;> rfl

/-- C1 (amended): on a queue file none of whose lines is blank, the claim
step deletes the head line — the very line whose decoded command it claims —
and the delete step precedes the spawn step; if no other line strips to the
same entry, the claimed entry is no longer readable at the head afterwards
(a crash of the spawned worker leaves the commands queue unchanged). -/
theorem c1_claim_before_execute (dec : List Char → Option Cmd)
    (content l : List Char) (lines : List (List Char)) (cmd : Cmd)
    (hread : pyReadlines content = l :: lines)
    (hclean : ∀ x ∈ l :: lines, pyStrip x ≠ [])
    (hdec : dec (pyStrip l) = some cmd) :
    (process_command dec (some content)).2.1 = some cmd ∧
    (process_command dec (some content)).2.2 =
      [ProcStep.readQ, ProcStep.deleteQ, ProcStep.spawn cmd] ∧
    (pyStrip l ∉ lines.map pyStrip →
      readFirstEntry (process_command dec (some content)).1 ≠ some (pyStrip l)) := by
  have h1 : readFirstEntry (some content) = some (pyStrip l) := by
    simp [readFirstEntry, hread, firstNonBlank, hclean l (List.mem_cons_self l lines)]
  have hpc : process_command dec (some content) =
      (deleteFirstEntry (some content), some cmd,
        [ProcStep.readQ, ProcStep.deleteQ, ProcStep.spawn cmd]) := by
    simp only [process_command, h1, hdec]
  refine ⟨by rw [hpc], by rw [hpc], ?_⟩
  intro hnot
  have hshape : ∀ x ∈ lines, '\n' ∉ pyStrip x := by
    intro x hx
    refine newline_not_mem_pyStrip_line (pyReadlines_shape (s := content) x ?_)
    rw [hread]
    exact List.mem_cons_of_mem _ hx
  rw [hpc]
  simp only [deleteFirstEntry, hread, List.drop_succ_cons, List.drop_zero, readFirstEntry]
  intro hcon
  rw [firstNonBlank_deleteRewrite lines hshape] at hcon
  exact hnot (firstNonBlank_mem hcon)

/-- Decode oracle for the C1 witness. -/
def decW (l : List Char) : Option Cmd :=
  if l = ['a'] then some ⟨1, "hi"⟩ else none

/-- C1 witness: on the clean two-line file "a\nb\n", the claim step claims
the command decoded from line "a" and that entry is gone from the head. -/
theorem c1_claim_before_execute_witness :
    (process_command decW (some ['a', '\n', 'b', '\n'])).2.1 = some ⟨1, "hi"⟩ ∧
    readFirstEntry (process_command decW (some ['a', '\n', 'b', '\n'])).1 ≠
      some (pyStrip ['a', '\n']) :=
  ⟨(c1_claim_before_execute decW ['a', '\n', 'b', '\n'] ['a', '\n'] [['b', '\n']]
      ⟨1, "hi"⟩ (by decide) (by decide) (by decide)).1,
   (c1_claim_before_execute decW ['a', '\n', 'b', '\n'] ['a', '\n'] [['b', '\n']]
      ⟨1, "hi"⟩ (by decide) (by decide) (by decide)).2.2 (by decide)⟩

/-! ## `claude/sessions.py` -/

/-- Python string `strip` lifted to `String`. -/
def pyStripS (s : String) : String := String.mk (pyStrip s.toList)

/-- The persisted state of session management: the `.session` file
(`none` = the file does not exist). -/
structure SessionState where
  sessionFile : Option String
deriving DecidableEq

/-- `read_session_id`: the stripped file content, or "" when the file does
not exist. -/
def read_session_id (st : SessionState) : String :=
  match st.sessionFile with
  | some content => pyStripS content
  | none => ""

/-- `write_session_id`: overwrite the `.session` file with the id. -/
def write_session_id (st : SessionState) (sessionId : String) : SessionState :=
  { st with sessionFile := some sessionId }

/-- `initialize_session`: runs the backend and extracts a fresh session id
(modelled by the `init` outcome: `Except.error` = the raise on a non-zero
exit or extraction failure); on success the fresh id is persisted and
returned. -/
def initialize_session (st : SessionState) (init : Except String String) :
    Except String (String × SessionState) :=
  match init with
  | .ok fresh => .ok (fresh, write_session_id st fresh)
  | .error e => .error e

/-- `ensure_session`: read the persisted id; if empty, initialize (and
persist); return the id together with the resulting state. -/
def ensure_session (st : SessionState) (init : Except String String) :
    Except String (String × SessionState) :=
  let sessionId := read_session_id st
  if sessionId = "" then initialize_session st init
  else .ok (sessionId, st)

/-- C8: `ensure_session` is idempotent: when the persisted file holds a
non-empty (stripped) identifier it is returned unchanged with the state
untouched and no initialization consulted; when the id is absent or empty,
a successful initialization persists the fresh id and returns it, and a
second call — whatever its `init` outcome — returns the same identifier
without changing the state again. -/
theorem c8_ensure_session_idempotent (st : SessionState)
    (init init' : Except String String) (c fresh : String) :
    (st.sessionFile = some c → pyStripS c ≠ "" →
      ensure_session st init = .ok (pyStripS c, st)) ∧
    (read_session_id st = "" → init = .ok fresh → pyStripS fresh = fresh →
      fresh ≠ "" →
      ensure_session st init = .ok (fresh, write_session_id st fresh) ∧
      ensure_session (write_session_id st fresh) init' =
        .ok (fresh, write_session_id st fresh)) := by
  constructor
  · intro hc hne
    simp [ensure_session, read_session_id, hc, hne]
  · intro hempty hinit hstrip hne
    constructor
    · simp [ensure_session, hempty, hinit, initialize_session]
    · have hread : read_session_id (write_session_id st fresh) = fresh := by
        simp [read_session_id, write_session_id, hstrip]
      simp [ensure_session, hread, hne]

/-- C8 witness: with an empty state, initializing with id "s1" persists it
and a second call returns "s1" again whatever its init outcome. -/
theorem c8_ensure_session_idempotent_witness :
    ensure_session ⟨none⟩ (.ok "s1") = .ok ("s1", ⟨some "s1"⟩) ∧
    ensure_session ⟨some "s1"⟩ (.error "down") = .ok ("s1", ⟨some "s1"⟩) := by
  have h := (c8_ensure_session_idempotent ⟨none⟩ (.ok "s1") (.error "down")
    "" "s1").2 (by decide) rfl (by decide) (by decide)
  exact ⟨h.1, h.2⟩

/-! ## JSON values and `claude/parser.py`

Decoded JSON values as returned by `json.loads` (numbers restricted to the
integers, which is what the token counters are; floats do not occur in the
fields this code reads). Library-call failures the code observes
(`AttributeError` from `.get` on a non-dict, `TypeError` from iterating a
non-iterable or using an unhashable dict key, `TypeError` from joining
non-strings) are modelled as `none` in the `Option` monad; they are all
caught by the `except Exception` of `parse_json_output`. -/

inductive Json where
  | null
  | bool (b : Bool)
  | num (n : Int)
  | str (s : String)
  | arr (elems : List Json)
  | obj (fields : List (String × Json))

def lookupField : List (String × Json) → String → Option Json
  | [], _ => none
  | (k, v) :: rest, key => if k = key then some v else lookupField rest key

/-- Python `value.get(key, default)`: `none` models the `AttributeError`
raised when the value is not a dict. -/
def dictGet (j : Json) (key : String) (default : Json) : Option Json :=
  match j with
  | .obj fields => some ((lookupField fields key).getD default)
  | _ => none

/-- Python truthiness of a JSON value. -/
def Json.truthy : Json → Bool
  | .null => false
  | .bool b => b
  | .num n => n != 0
  | .str s => !(s == "")
  | .arr xs => !xs.isEmpty
  | .obj fs => !fs.isEmpty

/-- Whether the value is hashable (usable as a Python dict key). -/
def Json.isScalar : Json → Bool
  | .arr _ => false
  | .obj _ => false
  | _ => true

/-- Python `==` on hashable JSON values as used for dict keys (`True == 1`
holds in Python since `bool` is an `int` subtype). -/
def scalarEq : Json → Json → Bool
  | .null, .null => true
  | .bool a, .bool b => a == b
  | .bool a, .num m => (if a then (1 : Int) else 0) == m
  | .num n, .bool b => n == (if b then (1 : Int) else 0)
  | .num n, .num m => n == m
  | .str a, .str b => a == b
  | _, _ => false

/-- Python `value == "lit"` for a string literal. -/
def Json.isStrVal : Json → String → Bool
  | .str s, t => s = t
  | _, _ => false

def Json.asStr : Json → Option String
  | .str s => some s
  | _ => none

def Json.asInt : Json → Option Int
  | .num n => some n
  | _ => none

/-- Python `for block in content`: a list iterates its elements; iterating
a non-empty string (characters) or non-empty dict (keys) yields elements on
which the loop body's first `.get` raises, so it is collapsed to `none`
here; empty strings and dicts iterate nothing; other values raise
`TypeError` at the `for` itself. -/
def iterBlocks : Json → Option (List Json)
  | .arr xs => some xs
  | .str s => if s = "" then some [] else none
  | .obj fs => if fs.isEmpty then some [] else none
  | _ => none

/-- One entry of the `tools` dict of
`_extract_tools_and_text_from_events`. -/
structure ToolInfo where
  name : Json
  input : Json
  result : Option Json

def toolsContains (tools : List (Json × ToolInfo)) (key : Json) : Bool :=
  tools.any (fun kv => scalarEq kv.1 key)

/-- Python `tools[tool_id] = {...}`: overwrite in place (keeping insertion
position and the original key object) or append. -/
def toolsInsert (tools : List (Json × ToolInfo)) (key : Json) (v : ToolInfo) :
    List (Json × ToolInfo) :=
  if toolsContains tools key then
    tools.map (fun kv => if scalarEq kv.1 key then (kv.1, v) else kv)
  else tools ++ [(key, v)]

/-- Python `tools[tool_id]['result'] = result`. -/
def toolsSetResult (tools : List (Json × ToolInfo)) (key : Json) (result : Json) :
    List (Json × ToolInfo) :=
  tools.map (fun kv =>
    if scalarEq kv.1 key then (kv.1, { kv.2 with result := some result }) else kv)

/-- Accumulator of pass 1 of `_extract_tools_and_text_from_events`. -/
structure ExtractAcc where
  tools : List (Json × ToolInfo)
  textBlocks : List Json
  lastUsage : Option Json

/-- Pass-1 loop body over one content block of an assistant event
(`parser.py` lines 42-56). -/
def pass1Block (tools : List (Json × ToolInfo)) (textBlocks : List Json)
    (block : Json) : Option (List (Json × ToolInfo) × List Json) := do
  let btype ← dictGet block "type" Json.null
  if btype.isStrVal "tool_use" then do
    let toolId ← dictGet block "id" Json.null
    if toolId.isScalar then do
      let name ← dictGet block "name" Json.null
      let input ← dictGet block "input" (Json.obj [])
      pure (toolsInsert tools toolId ⟨name, input, none⟩, textBlocks)
    else none
  else if btype.isStrVal "text" then do
    let t ← dictGet block "text" (Json.str "")
    pure (tools, textBlocks ++ [t])
  else pure (tools, textBlocks)

def pass1Blocks : List (Json × ToolInfo) → List Json → List Json →
    Option (List (Json × ToolInfo) × List Json)
  | tools, texts, [] => some (tools, texts)
  | tools, texts, b :: rest => do
    let r ← pass1Block tools texts b
    pass1Blocks r.1 r.2 rest

/-- Pass-1 handling of one event (`parser.py` lines 31-56): only assistant
events are inspected; a non-empty `usage` overwrites `last_usage`. -/
def pass1Event (acc : ExtractAcc) (event : Json) : Option ExtractAcc := do
  let etype ← dictGet event "type" Json.null
  if etype.isStrVal "assistant" then do
    let msg ← dictGet event "message" (Json.obj [])
    let content ← dictGet msg "content" (Json.arr [])
    let usage ← dictGet msg "usage" (Json.obj [])
    let lastUsage := if usage.truthy then some usage else acc.lastUsage
    let blocks ← iterBlocks content
    let r ← pass1Blocks acc.tools acc.textBlocks blocks
    pure ⟨r.1, r.2, lastUsage⟩
  else pure acc

def pass1Events : List Json → ExtractAcc → Option ExtractAcc
  | [], acc => some acc
  | e :: rest, acc => do pass1Events rest (← pass1Event acc e)

/-- Pass-2 loop body over one content block of a user event
(`parser.py` lines 59-68). -/
def pass2Block (tools : List (Json × ToolInfo)) (block : Json) :
    Option (List (Json × ToolInfo)) := do
  let btype ← dictGet block "type" Json.null
  if btype.isStrVal "tool_result" then do
    let toolId ← dictGet block "tool_use_id" Json.null
    if toolId.isScalar then
      if toolsContains tools toolId then do
        let content ← dictGet block "content" (Json.str "")
        pure (toolsSetResult tools toolId content)
      else pure tools
    else none
  else pure tools

def pass2Blocks : List (Json × ToolInfo) → List Json → Option (List (Json × ToolInfo))
  | tools, [] => some tools
  | tools, b :: rest => do pass2Blocks (← pass2Block tools b) rest

def pass2Event (tools : List (Json × ToolInfo)) (event : Json) :
    Option (List (Json × ToolInfo)) := do
  let etype ← dictGet event "type" Json.null
  if etype.isStrVal "user" then do
    let msg ← dictGet event "message" (Json.obj [])
    let content ← dictGet msg "content" (Json.arr [])
    let blocks ← iterBlocks content
    pass2Blocks tools blocks
  else pure tools

def pass2Events : List Json → List (Json × ToolInfo) →
    Option (List (Json × ToolInfo))
  | [], tools => some tools
  | e :: rest, tools => do pass2Events rest (← pass2Event tools e)

/-- `_extract_tools_and_text_from_events` (`claude/parser.py`). -/
def extract_tools_and_text (events : List Json) :
    Option (List (Json × ToolInfo) × List Json × Option Json) := do
  let acc ← pass1Events events ⟨[], [], none⟩
  let tools ← pass2Events events acc.tools
  pure (tools, acc.textBlocks, acc.lastUsage)

/-- `_format_tool_actions` (`claude/parser.py`), with `format_tool_action`
from `claude/output.py` abstracted as the total function `fmt`; falsy
results (`None` or "") are skipped. -/
def format_tool_actions (fmt : Json → Json → Option Json → Option String)
    (tools : List (Json × ToolInfo)) : List String :=
  tools.foldl (fun acc kv =>
    match fmt kv.2.name kv.2.input kv.2.result with
    | some a => if a = "" then acc else acc ++ [a]
    | none => acc) []

/-- `usage.get(key, 0)` read as an integer (a non-integer value would raise
on the later arithmetic or formatting). -/
def usageField (u : Json) (key : String) : Option Int := do
  Json.asInt (← dictGet u key (Json.num 0))

/-- The token-counter first line of `_build_output_text`
(`parser.py` line 117). -/
def counterLine (sessionContext : Int) (sessionId : String) : String :=
  toString sessionContext ++ " / " ++ toString MAX_SESSION_CONTEXT ++ " | " ++
    pyTake sessionId 8

/-- The actions part of `result_parts` (`parser.py` lines 120-125). -/
def actionsSection (actions : List String) : List String :=
  if actions.isEmpty then [] else "" :: List.intersperse "" actions

def mapAsStr : List Json → Option (List String)
  | [] => some []
  | t :: rest => do
    let s ← t.asStr
    let l ← mapAsStr rest
    pure (s :: l)

/-- Python `'\n\n'.join(text_blocks)`: raises (`none`) when a block is not
a string. -/
def joinStrBlocks (blocks : List Json) : Option String := do
  let strs ← mapAsStr blocks
  pure (String.intercalate "\n\n" strs)

/-- The final-text part of `result_parts` (`parser.py` lines 128-130). -/
def textsSection : List Json → Option (List String)
  | [] => some []
  | blocks => do
    let joined ← joinStrBlocks blocks
    pure ["", joined]

/-- `_build_output_text` (`claude/parser.py`). -/
def build_output_text (actions : List String) (textBlocks : List Json)
    (usage : Option Json) (sessionId : String) : Option String := do
  let counterParts ← match usage with
    | some u =>
      if u.truthy ∧ sessionId ≠ "" then do
        let i ← usageField u "input_tokens"
        let cc ← usageField u "cache_creation_input_tokens"
        let cr ← usageField u "cache_read_input_tokens"
        pure [counterLine (i + cc + cr) sessionId]
      else pure ([] : List String)
    | none => pure ([] : List String)
  let texts ← textsSection textBlocks
  pure (String.intercalate "\n" (counterParts ++ actionsSection actions ++ texts))

/-- `parse_json_output` (`claude/parser.py`): `decoded` is the oracle for
`json.loads(json_output)` (`none` = `JSONDecodeError`), `fmt` abstracts
`format_tool_action`. Returns
`(formatted_result, input_tokens, cache_read, cache_creation)` or `none`
on any parse failure. -/
def parse_json_output (fmt : Json → Json → Option Json → Option String)
    (decoded : Option Json) (sessionId : String) :
    Option (String × Int × Int × Int) := do
  match decoded with
  | none => none
  | some v =>
    match v with
    | .arr events => do
      let r ← extract_tools_and_text events
      let actions := format_tool_actions fmt r.1
      let fullResult ← build_output_text actions r.2.1 r.2.2 sessionId
      match r.2.2 with
      | some u => do
        let i ← usageField u "input_tokens"
        let cc ← usageField u "cache_creation_input_tokens"
        let cr ← usageField u "cache_read_input_tokens"
        pure (fullResult, i, cr, cc)
      | none => pure (fullResult, 0, 0, 0)
    | _ => none

/-- The usage snapshot one event contributes to `last_usage`: the truthy
`usage` of an assistant event (`parser.py` lines 33-40), `none` otherwise. -/
def eventUsage (event : Json) : Option Json := do
  let etype ← dictGet event "type" Json.null
  if etype.isStrVal "assistant" then do
    let msg ← dictGet event "message" (Json.obj [])
    let u ← dictGet msg "usage" (Json.obj [])
    if u.truthy then some u else none
  else none

def Json.isStr : Json → Bool
  | .str _ => true
  | _ => false

/-- Well-formedness of a content block: enough for the two extraction
passes not to raise (tool ids hashable, text payloads strings). -/
def WFBlock (b : Json) : Bool :=
  match b with
  | .obj fields =>
    (!((lookupField fields "type").getD Json.null).isStrVal "tool_use"
      || ((lookupField fields "id").getD Json.null).isScalar) &&
    (!((lookupField fields "type").getD Json.null).isStrVal "tool_result"
      || ((lookupField fields "tool_use_id").getD Json.null).isScalar) &&
    (!((lookupField fields "type").getD Json.null).isStrVal "text"
      || ((lookupField fields "text").getD (Json.str "")).isStr)
  | _ => false

/-- Well-formedness of a usage object: a dict whose three token fields are
integers when present. -/
def WFUsage (u : Json) : Bool :=
  match u with
  | .obj fields =>
    (match (lookupField fields "input_tokens").getD (Json.num 0) with
      | .num _ => true | _ => false) &&
    (match (lookupField fields "cache_creation_input_tokens").getD (Json.num 0) with
      | .num _ => true | _ => false) &&
    (match (lookupField fields "cache_read_input_tokens").getD (Json.num 0) with
      | .num _ => true | _ => false)
  | _ => false

/-- Well-formedness of one backend event: an object; if it is an assistant
or user event, its message is a dict with a list of well-formed content
blocks, and an assistant event's usage is a well-formed usage dict. -/
def WFEvent (e : Json) : Bool :=
  match e with
  | .obj fields =>
    if ((lookupField fields "type").getD Json.null).isStrVal "assistant"
        || ((lookupField fields "type").getD Json.null).isStrVal "user" then
      match (lookupField fields "message").getD (Json.obj []) with
      | .obj mfields =>
        (match (lookupField mfields "content").getD (Json.arr []) with
         | .arr blocks => blocks.all WFBlock
         | _ => false) &&
        (if ((lookupField fields "type").getD Json.null).isStrVal "assistant" then
           WFUsage ((lookupField mfields "usage").getD (Json.obj []))
         else true)
      | _ => false
    else true
  | _ => false

def TextsOK (texts : List Json) : Prop := ∀ t ∈ texts, t.isStr = true

def AccOK (acc : ExtractAcc) : Prop :=
  TextsOK acc.textBlocks ∧ ∀ u, acc.lastUsage = some u → WFUsage u = true

/-- The value `last_usage` takes after pass 1 runs over `events` starting
from `u` (pure specification of the fold). -/
def lastUsageFold : List Json → Option Json → Option Json
  | [], u => u
  | e :: rest, u =>
    lastUsageFold rest (match eventUsage e with | some v => some v | none => u)

theorem pass1Block_wf {b : Json} (hb : WFBlock b = true)
    (tools : List (Json × ToolInfo)) (texts : List Json) (ht : TextsOK texts) :
    ∃ r, pass1Block tools texts b = some r ∧ TextsOK r.2 := by
  cases b with
  | obj fields =>
    simp only [WFBlock, Bool.and_eq_true] at hb
    obtain ⟨⟨hb1, hb2⟩, hb3⟩ := hb
    by_cases htu : ((lookupField fields "type").getD Json.null).isStrVal "tool_use" = true
    · have hid : ((lookupField fields "id").getD Json.null).isScalar = true := by
        rw [htu] at hb1; simpa using hb1
      refine ⟨(toolsInsert tools ((lookupField fields "id").getD Json.null)
        ⟨(lookupField fields "name").getD Json.null,
         (lookupField fields "input").getD (Json.obj []), none⟩, texts), ?_, ht⟩
      simp [pass1Block, dictGet, htu, hid]
    · by_cases htx : ((lookupField fields "type").getD Json.null).isStrVal "text" = true
      · have htstr : ((lookupField fields "text").getD (Json.str "")).isStr = true := by
          rw [htx] at hb3; simpa using hb3
        refine ⟨(tools, texts ++ [(lookupField fields "text").getD (Json.str "")]), ?_, ?_⟩
        · simp [pass1Block, dictGet, htu, htx]
        · intro t htm
          rcases List.mem_append.mp htm with h | h
          · exact ht t h
          · rw [List.mem_singleton] at h; subst h; exact htstr
      · exact ⟨(tools, texts), by simp [pass1Block, dictGet, htu, htx], ht⟩
  | null => simp [WFBlock] at hb
  | bool b => simp [WFBlock] at hb
  | num n => simp [WFBlock] at hb
  | str s => simp [WFBlock] at hb
  | arr xs => simp [WFBlock] at hb

theorem pass1Blocks_wf (blocks : List Json) (hb : blocks.all WFBlock = true) :
    ∀ tools texts, TextsOK texts →
      ∃ r, pass1Blocks tools texts blocks = some r ∧ TextsOK r.2 := by
  induction blocks with
  | nil => intro tools texts ht; exact ⟨(tools, texts), rfl, ht⟩
  | cons b rest ih =>
    intro tools texts ht
    simp only [List.all_cons, Bool.and_eq_true] at hb
    obtain ⟨r1, hr1, ht1⟩ := pass1Block_wf hb.1 tools texts ht
    obtain ⟨r2, hr2, ht2⟩ := ih hb.2 r1.1 r1.2 ht1
    exact ⟨r2, by simp [pass1Blocks, hr1, hr2], ht2⟩

theorem pass1Event_wf {e : Json} (he : WFEvent e = true)
    (acc : ExtractAcc) (hacc : AccOK acc) :
    ∃ acc', pass1Event acc e = some acc' ∧ AccOK acc' ∧
      acc'.lastUsage =
        (match eventUsage e with | some u => some u | none => acc.lastUsage) := by
  cases e with
  | obj fields =>
    by_cases ha : ((lookupField fields "type").getD Json.null).isStrVal "assistant" = true
    · cases hmsg : (lookupField fields "message").getD (Json.obj []) with
      | obj mfields =>
        simp only [WFEvent, ha, Bool.true_or, if_true, hmsg, Bool.and_eq_true] at he
        obtain ⟨hcontent, husage⟩ := he
        cases hcon : (lookupField mfields "content").getD (Json.arr []) with
        | arr blocks =>
          rw [hcon] at hcontent
          have hall : blocks.all WFBlock = true := hcontent
          obtain ⟨r, hr, htexts⟩ :=
            pass1Blocks_wf blocks hall acc.tools acc.textBlocks hacc.1
          refine ⟨⟨r.1, r.2, if ((lookupField mfields "usage").getD
            (Json.obj [])).truthy then some ((lookupField mfields "usage").getD
            (Json.obj [])) else acc.lastUsage⟩, ?_, ?_, ?_⟩
          · simp [pass1Event, dictGet, ha, hmsg, hcon, iterBlocks, hr]
          · refine ⟨htexts, ?_⟩
            intro u hu
            by_cases hut : ((lookupField mfields "usage").getD (Json.obj [])).truthy = true
            · simp only [hut, if_true, Option.some_inj] at hu
              rw [← hu]
              exact husage
            · simp only [hut] at hu
              simp only [Bool.false_eq_true, if_false] at hu
              exact hacc.2 u hu
          · have heu : eventUsage (Json.obj fields) =
                (if ((lookupField mfields "usage").getD (Json.obj [])).truthy then
                  some ((lookupField mfields "usage").getD (Json.obj [])) else none) := by
              simp [eventUsage, dictGet, ha, hmsg]
            by_cases hut : ((lookupField mfields "usage").getD (Json.obj [])).truthy = true
            · simp [heu, hut]
            · simp [heu, hut]
        | null => rw [hcon] at hcontent; simp at hcontent
        | bool b => rw [hcon] at hcontent; simp at hcontent
        | num n => rw [hcon] at hcontent; simp at hcontent
        | str s => rw [hcon] at hcontent; simp at hcontent
        | obj fs => rw [hcon] at hcontent; simp at hcontent
      | null =>
        simp only [WFEvent, ha, Bool.true_or, if_true, hmsg] at he
        simp at he
      | bool b =>
        simp only [WFEvent, ha, Bool.true_or, if_true, hmsg] at he
        simp at he
      | num n =>
        simp only [WFEvent, ha, Bool.true_or, if_true, hmsg] at he
        simp at he
      | str s =>
        simp only [WFEvent, ha, Bool.true_or, if_true, hmsg] at he
        simp at he
      | arr xs =>
        simp only [WFEvent, ha, Bool.true_or, if_true, hmsg] at he
        simp at he
    · refine ⟨acc, ?_, hacc, ?_⟩
      · simp [pass1Event, dictGet, ha]
      · have heu : eventUsage (Json.obj fields) = none := by
          simp [eventUsage, dictGet, ha]
        simp [heu]
  | null => simp [WFEvent] at he
  | bool b => simp [WFEvent] at he
  | num n => simp [WFEvent] at he
  | str s => simp [WFEvent] at he
  | arr xs => simp [WFEvent] at he

theorem pass1Events_wf (es : List Json) :
    ∀ acc, (∀ e ∈ es, WFEvent e = true) → AccOK acc →
      ∃ acc', pass1Events es acc = some acc' ∧ AccOK acc' ∧
        acc'.lastUsage = lastUsageFold es acc.lastUsage := by
  induction es with
  | nil => intro acc _ hacc; exact ⟨acc, rfl, hacc, rfl⟩
  | cons e rest ih =>
    intro acc hwf hacc
    obtain ⟨acc1, h1, hok1, hu1⟩ :=
      pass1Event_wf (hwf e (List.mem_cons_self e rest)) acc hacc
    obtain ⟨acc2, h2, hok2, hu2⟩ :=
      ih acc1 (fun x hx => hwf x (List.mem_cons_of_mem _ hx)) hok1
    refine ⟨acc2, ?_, hok2, ?_⟩
    · simp [pass1Events, h1, h2]
    · rw [hu2, hu1]
      rfl

theorem lastUsageFold_none (es : List Json) (h : ∀ e ∈ es, eventUsage e = none) :
    ∀ u, lastUsageFold es u = u := by
  induction es with
  | nil => intro u; rfl
  | cons e rest ih =>
    intro u
    have he := h e (List.mem_cons_self e rest)
    simp only [lastUsageFold, he]
    exact ih (fun x hx => h x (List.mem_cons_of_mem _ hx)) u

theorem lastUsageFold_append (xs ys : List Json) :
    ∀ u, lastUsageFold (xs ++ ys) u = lastUsageFold ys (lastUsageFold xs u) := by
  induction xs with
  | nil => intro u; rfl
  | cons x rest ih =>
    intro u
    simp only [List.cons_append, lastUsageFold]
    exact ih _

theorem pass2Block_wf {b : Json} (hb : WFBlock b = true)
    (tools : List (Json × ToolInfo)) :
    ∃ tools', pass2Block tools b = some tools' := by
  cases b with
  | obj fields =>
    simp only [WFBlock, Bool.and_eq_true] at hb
    obtain ⟨⟨hb1, hb2⟩, hb3⟩ := hb
    by_cases htr : ((lookupField fields "type").getD Json.null).isStrVal "tool_result" = true
    · have hid : ((lookupField fields "tool_use_id").getD Json.null).isScalar = true := by
        rw [htr] at hb2; simpa using hb2
      by_cases hin : toolsContains tools ((lookupField fields "tool_use_id").getD Json.null) = true
      · exact ⟨toolsSetResult tools ((lookupField fields "tool_use_id").getD Json.null)
          ((lookupField fields "content").getD (Json.str "")),
          by simp [pass2Block, dictGet, htr, hid, hin]⟩
      · exact ⟨tools, by simp [pass2Block, dictGet, htr, hid, hin]⟩
    · exact ⟨tools, by simp [pass2Block, dictGet, htr]⟩
  | null => simp [WFBlock] at hb
  | bool b => simp [WFBlock] at hb
  | num n => simp [WFBlock] at hb
  | str s => simp [WFBlock] at hb
  | arr xs => simp [WFBlock] at hb

theorem pass2Blocks_wf (blocks : List Json) (hb : blocks.all WFBlock = true) :
    ∀ tools, ∃ tools', pass2Blocks tools blocks = some tools' := by
  induction blocks with
  | nil => intro tools; exact ⟨tools, rfl⟩
  | cons b rest ih =>
    intro tools
    simp only [List.all_cons, Bool.and_eq_true] at hb
    obtain ⟨t1, h1⟩ := pass2Block_wf hb.1 tools
    obtain ⟨t2, h2⟩ := ih hb.2 t1
    exact ⟨t2, by simp [pass2Blocks, h1, h2]⟩

theorem pass2Event_wf {e : Json} (he : WFEvent e = true)
    (tools : List (Json × ToolInfo)) :
    ∃ tools', pass2Event tools e = some tools' := by
  cases e with
  | obj fields =>
    by_cases hu : ((lookupField fields "type").getD Json.null).isStrVal "user" = true
    · cases hmsg : (lookupField fields "message").getD (Json.obj []) with
      | obj mfields =>
        simp only [WFEvent, hu, Bool.or_true, if_true, hmsg, Bool.and_eq_true] at he
        obtain ⟨hcontent, _⟩ := he
        cases hcon : (lookupField mfields "content").getD (Json.arr []) with
        | arr blocks =>
          rw [hcon] at hcontent
          have hall : blocks.all WFBlock = true := hcontent
          obtain ⟨tools', h'⟩ := pass2Blocks_wf blocks hall tools
          exact ⟨tools', by simp [pass2Event, dictGet, hu, hmsg, hcon, iterBlocks, h']⟩
        | null => rw [hcon] at hcontent; simp at hcontent
        | bool b => rw [hcon] at hcontent; simp at hcontent
        | num n => rw [hcon] at hcontent; simp at hcontent
        | str s => rw [hcon] at hcontent; simp at hcontent
        | obj fs => rw [hcon] at hcontent; simp at hcontent
      | null =>
        simp only [WFEvent, hu, Bool.or_true, if_true, hmsg] at he
        simp at he
      | bool b =>
        simp only [WFEvent, hu, Bool.or_true, if_true, hmsg] at he
        simp at he
      | num n =>
        simp only [WFEvent, hu, Bool.or_true, if_true, hmsg] at he
        simp at he
      | str s =>
        simp only [WFEvent, hu, Bool.or_true, if_true, hmsg] at he
        simp at he
      | arr xs =>
        simp only [WFEvent, hu, Bool.or_true, if_true, hmsg] at he
        simp at he
    · exact ⟨tools, by simp [pass2Event, dictGet, hu]⟩
  | null => simp [WFEvent] at he
  | bool b => simp [WFEvent] at he
  | num n => simp [WFEvent] at he
  | str s => simp [WFEvent] at he
  | arr xs => simp [WFEvent] at he

theorem pass2Events_wf (es : List Json) :
    ∀ tools, (∀ e ∈ es, WFEvent e = true) →
      ∃ tools', pass2Events es tools = some tools' := by
  induction es with
  | nil => intro tools _; exact ⟨tools, rfl⟩
  | cons e rest ih =>
    intro tools hwf
    obtain ⟨t1, h1⟩ := pass2Event_wf (hwf e (List.mem_cons_self e rest)) tools
    obtain ⟨t2, h2⟩ := ih t1 (fun x hx => hwf x (List.mem_cons_of_mem _ hx))
    exact ⟨t2, by simp [pass2Events, h1, h2]⟩

theorem extract_wf (es : List Json) (hwf : ∀ e ∈ es, WFEvent e = true) :
    ∃ tools texts lu, extract_tools_and_text es = some (tools, texts, lu) ∧
      TextsOK texts ∧ (∀ u, lu = some u → WFUsage u = true) ∧
      lu = lastUsageFold es none := by
  obtain ⟨acc, h1, hok, hu⟩ := pass1Events_wf es ⟨[], [], none⟩ hwf
    ⟨by intro t ht; simp at ht, by intro u hu; simp at hu⟩
  obtain ⟨tools', h2⟩ := pass2Events_wf es acc.tools hwf
  refine ⟨tools', acc.textBlocks, acc.lastUsage, ?_, hok.1, hok.2, hu⟩
  simp [extract_tools_and_text, h1, h2]

theorem usageField_wf {u : Json} (hu : WFUsage u = true) :
    (∃ i, usageField u "input_tokens" = some i) ∧
    (∃ cc, usageField u "cache_creation_input_tokens" = some cc) ∧
    (∃ cr, usageField u "cache_read_input_tokens" = some cr) := by
  cases u with
  | obj fields =>
    simp only [WFUsage, Bool.and_eq_true] at hu
    obtain ⟨⟨h1, h2⟩, h3⟩ := hu
    refine ⟨?_, ?_, ?_⟩
    · cases hv : (lookupField fields "input_tokens").getD (Json.num 0) with
      | num n => exact ⟨n, by simp [usageField, dictGet, hv, Json.asInt]⟩
      | null => rw [hv] at h1; simp at h1
      | bool b => rw [hv] at h1; simp at h1
      | str s => rw [hv] at h1; simp at h1
      | arr xs => rw [hv] at h1; simp at h1
      | obj fs => rw [hv] at h1; simp at h1
    · cases hv : (lookupField fields "cache_creation_input_tokens").getD (Json.num 0) with
      | num n => exact ⟨n, by simp [usageField, dictGet, hv, Json.asInt]⟩
      | null => rw [hv] at h2; simp at h2
      | bool b => rw [hv] at h2; simp at h2
      | str s => rw [hv] at h2; simp at h2
      | arr xs => rw [hv] at h2; simp at h2
      | obj fs => rw [hv] at h2; simp at h2
    · cases hv : (lookupField fields "cache_read_input_tokens").getD (Json.num 0) with
      | num n => exact ⟨n, by simp [usageField, dictGet, hv, Json.asInt]⟩
      | null => rw [hv] at h3; simp at h3
      | bool b => rw [hv] at h3; simp at h3
      | str s => rw [hv] at h3; simp at h3
      | arr xs => rw [hv] at h3; simp at h3
      | obj fs => rw [hv] at h3; simp at h3
  | null => simp [WFUsage] at hu
  | bool b => simp [WFUsage] at hu
  | num n => simp [WFUsage] at hu
  | str s => simp [WFUsage] at hu
  | arr xs => simp [WFUsage] at hu

theorem mapAsStr_wf : ∀ (texts : List Json), TextsOK texts →
    ∃ l, mapAsStr texts = some l := by
  intro texts
  induction texts with
  | nil => intro _; exact ⟨[], rfl⟩
  | cons t rest ih =>
    intro ht
    have hts : t.isStr = true := ht t (List.mem_cons_self t rest)
    obtain ⟨l, hl⟩ := ih (fun x hx => ht x (List.mem_cons_of_mem _ hx))
    cases t with
    | str s => exact ⟨s :: l, by simp [mapAsStr, Json.asStr, hl]⟩
    | null => simp [Json.isStr] at hts
    | bool b => simp [Json.isStr] at hts
    | num n => simp [Json.isStr] at hts
    | arr xs => simp [Json.isStr] at hts
    | obj fs => simp [Json.isStr] at hts

theorem textsSection_wf {texts : List Json} (ht : TextsOK texts) :
    ∃ parts, textsSection texts = some parts := by
  cases texts with
  | nil => exact ⟨[], rfl⟩
  | cons t rest =>
    obtain ⟨l, hl⟩ := mapAsStr_wf (t :: rest) ht
    exact ⟨["", String.intercalate "\n\n" l],
      by simp [textsSection, joinStrBlocks, hl]⟩

theorem build_output_text_wf (actions : List String) {texts : List Json}
    (ht : TextsOK texts) (usage : Option Json)
    (hu : ∀ u, usage = some u → WFUsage u = true) (sid : String) :
    ∃ out, build_output_text actions texts usage sid = some out := by
  obtain ⟨parts, hparts⟩ := textsSection_wf ht
  cases usage with
  | none =>
    exact ⟨String.intercalate "\n" (actionsSection actions ++ parts),
      by simp [build_output_text, hparts]⟩
  | some u =>
    by_cases hc : u.truthy = true ∧ sid ≠ ""
    · obtain ⟨⟨i, hi⟩, ⟨cc, hcc⟩, ⟨cr, hcr⟩⟩ := usageField_wf (hu u rfl)
      refine ⟨String.intercalate "\n"
        (counterLine (i + cc + cr) sid :: (actionsSection actions ++ parts)), ?_⟩
      simp [build_output_text, hc, hi, hcc, hcr, hparts]
    · exact ⟨String.intercalate "\n" (actionsSection actions ++ parts),
        by simp [build_output_text, hc, hparts]⟩

theorem build_output_text_none (actions : List String) {texts : List Json}
    {parts : List String} (hparts : textsSection texts = some parts) (sid : String) :
    build_output_text actions texts none sid =
      some (String.intercalate "\n" (actionsSection actions ++ parts)) := by
  simp [build_output_text, hparts]

/-- C3: `last_usage` is last-write-wins.  For any well-formed event stream,
if assistant event `e` carries (truthy) usage `u` and no later event does,
the parsed token triple is exactly `u`'s three fields — not a sum across
snapshots; and appending an event whose usage is empty (or absent, or which
is not an assistant event) leaves the extracted usage unchanged. -/
theorem c3_usage_last_write_wins :
    (∀ (fmt : Json → Json → Option Json → Option String) (sid : String)
        (es₁ es₂ : List Json) (e u : Json),
      (∀ x ∈ es₁ ++ e :: es₂, WFEvent x = true) →
      eventUsage e = some u →
      (∀ x ∈ es₂, eventUsage x = none) →
      ∃ out i cc cr,
        usageField u "input_tokens" = some i ∧
        usageField u "cache_creation_input_tokens" = some cc ∧
        usageField u "cache_read_input_tokens" = some cr ∧
        parse_json_output fmt (some (Json.arr (es₁ ++ e :: es₂))) sid =
          some (out, i, cr, cc)) ∧
    (∀ (es : List Json) (e : Json),
      (∀ x ∈ es ++ [e], WFEvent x = true) →
      eventUsage e = none →
      ∃ tools₁ texts₁ tools₂ texts₂ lu,
        extract_tools_and_text es = some (tools₁, texts₁, lu) ∧
        extract_tools_and_text (es ++ [e]) = some (tools₂, texts₂, lu)) := by
  constructor
  · intro fmt sid es₁ es₂ e u hwf heu hnone
    obtain ⟨tools, texts, lu, hext, htexts, huok, hufold⟩ :=
      extract_wf (es₁ ++ e :: es₂) hwf
    have hlu : lu = some u := by
      rw [hufold, lastUsageFold_append es₁ (e :: es₂)]
      simp only [lastUsageFold, heu]
      exact lastUsageFold_none es₂ hnone (some u)
    rw [hlu] at hext huok
    have hwfu : WFUsage u = true := huok u rfl
    obtain ⟨⟨i, hi⟩, ⟨cc, hcc⟩, ⟨cr, hcr⟩⟩ := usageField_wf hwfu
    obtain ⟨out, hbuild⟩ := build_output_text_wf
      (format_tool_actions fmt tools) htexts (some u)
      (fun v hv => by rw [Option.some_inj] at hv; rw [← hv]; exact hwfu) sid
    refine ⟨out, i, cc, cr, hi, hcc, hcr, ?_⟩
    simp [parse_json_output, hext, hbuild, hi, hcc, hcr]
  · intro es e hwf heu
    obtain ⟨t₁, x₁, lu₁, hext₁, _, _, hfold₁⟩ :=
      extract_wf es (fun x hx => hwf x (List.mem_append_left _ hx))
    obtain ⟨t₂, x₂, lu₂, hext₂, _, _, hfold₂⟩ := extract_wf (es ++ [e]) hwf
    have : lu₂ = lu₁ := by
      rw [hfold₂, hfold₁, lastUsageFold_append es [e]]
      simp [lastUsageFold, heu]
    rw [this] at hext₂
    exact ⟨t₁, x₁, t₂, x₂, lu₁, hext₁, hext₂⟩

/-- Usage object with all three counters, used in witnesses. -/
def usageObjW : Json :=
  Json.obj [("input_tokens", Json.num 7), ("cache_creation_input_tokens", Json.num 2),
    ("cache_read_input_tokens", Json.num 3)]

/-- An assistant event with the given usage and empty content. -/
def assistantEvW (u : Json) : Json :=
  Json.obj [("type", Json.str "assistant"),
    ("message", Json.obj [("content", Json.arr []), ("usage", u)])]

/-- C3 witness: a stream with an early partial snapshot, a full snapshot,
and a trailing empty snapshot parses to the full snapshot's numbers. -/
theorem c3_usage_last_write_wins_witness :
    ∃ out i cc cr,
      usageField usageObjW "input_tokens" = some i ∧
      usageField usageObjW "cache_creation_input_tokens" = some cc ∧
      usageField usageObjW "cache_read_input_tokens" = some cr ∧
      parse_json_output (fun _ _ _ => none)
        (some (Json.arr ([assistantEvW (Json.obj [("input_tokens", Json.num 100)])] ++
          assistantEvW usageObjW :: [assistantEvW (Json.obj [])]))) "sess" =
        some (out, i, cr, cc) :=
  c3_usage_last_write_wins.1 (fun _ _ _ => none) "sess"
    [assistantEvW (Json.obj [("input_tokens", Json.num 100)])]
    [assistantEvW (Json.obj [])] (assistantEvW usageObjW) usageObjW
    (by decide) rfl
    (by intro x hx; rw [List.mem_singleton] at hx; subst hx; rfl)

/-- C10: a well-formed event array with no (truthy) usage snapshot at all
still parses successfully: the token triple is `(0, 0, 0)`, the formatted
output consists of the actions and text sections only (no context-counter
line), and with context-size `0` the worker appends exactly the one result
response and never takes the auto-compact branch. -/
theorem c10_no_usage_zero_counts :
    ∀ (fmt : Json → Json → Option Json → Option String) (sid : String)
      (es : List Json),
      (∀ x ∈ es, WFEvent x = true) →
      (∀ x ∈ es, eventUsage x = none) →
      ∃ tools texts parts,
        extract_tools_and_text es = some (tools, texts, none) ∧
        textsSection texts = some parts ∧
        parse_json_output fmt (some (Json.arr es)) sid =
          some (String.intercalate "\n"
            (actionsSection (format_tool_actions fmt tools) ++ parts), 0, 0, 0) ∧
        ∀ (messageId : Int) (compact : Except String String) (out : String)
            (sid' : String),
          executeCommandSubprocess messageId (.ok (out, 0, sid')) compact =
            [(messageId, out)] := by
  intro fmt sid es hwf hnone
  obtain ⟨tools, texts, lu, hext, htexts, _, hufold⟩ := extract_wf es hwf
  have hlu : lu = none := by
    rw [hufold]
    exact lastUsageFold_none es hnone none
  rw [hlu] at hext
  obtain ⟨parts, hparts⟩ := textsSection_wf htexts
  have hbuild := build_output_text_none (format_tool_actions fmt tools) hparts sid
  refine ⟨tools, texts, parts, hext, hparts, ?_, ?_⟩
  · simp [parse_json_output, hext, hbuild]
  · intro messageId compact out sid'
    simp [executeCommandSubprocess, AUTO_COMPACT_THRESHOLD]

/-- An assistant event with one text block and empty usage. -/
def textEvW : Json :=
  Json.obj [("type", Json.str "assistant"),
    ("message", Json.obj [("content",
      Json.arr [Json.obj [("type", Json.str "text"), ("text", Json.str "hello")]]),
      ("usage", Json.obj [])])]

/-- C10 witness: a stream of one empty-usage assistant event and one text
event parses with zero counts and no counter line. -/
theorem c10_no_usage_zero_counts_witness :
    ∃ tools texts parts,
      extract_tools_and_text [assistantEvW (Json.obj []), textEvW] =
        some (tools, texts, none) ∧
      textsSection texts = some parts ∧
      parse_json_output (fun _ _ _ => none)
        (some (Json.arr [assistantEvW (Json.obj []), textEvW])) "sess" =
        some (String.intercalate "\n"
          (actionsSection (format_tool_actions (fun _ _ _ => none) tools) ++ parts),
          0, 0, 0) ∧
      ∀ (messageId : Int) (compact : Except String String) (out : String)
          (sid' : String),
        executeCommandSubprocess messageId (.ok (out, 0, sid')) compact =
          [(messageId, out)] :=
  c10_no_usage_zero_counts (fun _ _ _ => none) "sess"
    [assistantEvW (Json.obj []), textEvW] (by decide)
    (by
      intro x hx
      rcases List.mem_cons.mp hx with h | h
      · subst h; rfl
      · rw [List.mem_singleton] at h; subst h; rfl)

/-! ## `claude/executor.py` -/

/-- Outcome of the completed `subprocess.run` of the backend binary. -/
structure ProcResult where
  returncode : Int
  stdout : String
  stderr : String

/-- Python `str.lower()` (ASCII; the signatures tested are ASCII). -/
def pyLowerS (s : String) : String := String.mk (s.toList.map Char.toLower)

/-- Python substring test `needle in hay` on code-point lists. -/
def containsSubL (hay needle : List Char) : Bool :=
  (List.range (hay.length + 1)).any (fun i => needle.isPrefixOf (hay.drop i))

/-- Python substring test `needle in hay`. -/
def containsSub (hay needle : String) : Bool :=
  containsSubL hay.toList needle.toList

/-- `result.stderr.strip() if result.stderr else "Unknown error"`
(`executor.py` line 40). -/
def stderrMsg (stderr : String) : String :=
  if stderr ≠ "" then pyStripS stderr else "Unknown error"

/-- The out-of-memory signature test (`executor.py` line 42). -/
def hasOOMSignature (errorMsg : String) : Bool :=
  containsSub (pyLowerS errorMsg) "heap out of memory" ||
    containsSub (pyLowerS errorMsg) "heap limit"

/-- Truncation of long error messages (`executor.py` lines 48-49). -/
def truncateError (errorMsg : String) : String :=
  if errorMsg.toList.length > 500 then
    String.mk (errorMsg.toList.take 500) ++ "...\n(error truncated)"
  else errorMsg

/-- The fixed out-of-memory remediation message (`executor.py` lines 43-46). -/
def MSG_OOM : String :=
  "Claude Code ran out of memory. Session context is too large.\n\n" ++
    "Use /newsession to start fresh."

/-- `execute_claude` (`claude/executor.py`): `sid` is the id returned by
`ensure_session`, `pr` the completed subprocess, `decoded` the `json.loads`
oracle for `pr.stdout.strip()`, and `fmt` abstracts `format_tool_action`.
The surrounding `try/except Exception` re-raises every `RuntimeError` as
`RuntimeError(f"Execution failed: {e}")`, so each raised message carries
that prefix. -/
def execute_claude (sid : String) (pr : ProcResult) (decoded : Option Json)
    (fmt : Json → Json → Option Json → Option String) :
    Except String (String × Int × String) :=
  if pr.returncode ≠ 0 then
    if hasOOMSignature (stderrMsg pr.stderr) then
      .error ("Execution failed: " ++ MSG_OOM)
    else
      .error ("Execution failed: " ++
        ("Claude Code failed: " ++ truncateError (stderrMsg pr.stderr)))
  else
    if pyStripS pr.stdout = "" then .ok ("Done", 0, sid)
    else
      match parse_json_output fmt decoded sid with
      | none => .ok (pyStripS pr.stdout, 0, sid)
      | some r =>
        .ok (if r.1 ≠ "" then r.1 else "Done", r.2.1 + r.2.2.2 + r.2.2.1, sid)

/-- C6: on exit code 0, empty (stripped) stdout yields the placeholder
"Done" as a success with context-size 0, not an error; and non-empty stdout
on which the parser fails is returned as the raw (stripped) stdout with
context-size 0 instead of erroring the whole operation. -/
theorem c6_zero_exit_fallbacks (sid : String) (pr : ProcResult)
    (decoded : Option Json) (fmt : Json → Json → Option Json → Option String)
    (h0 : pr.returncode = 0) :
    (pyStripS pr.stdout = "" →
      execute_claude sid pr decoded fmt = .ok ("Done", 0, sid)) ∧
    (pyStripS pr.stdout ≠ "" → parse_json_output fmt decoded sid = none →
      execute_claude sid pr decoded fmt = .ok (pyStripS pr.stdout, 0, sid)) := by
  constructor
  · intro he; simp [execute_claude, h0, he]
  · intro hne hp; simp [execute_claude, h0, hne, hp]

/-- C6 witness: empty stdout gives "Done"; undecodable stdout is returned
verbatim. -/
theorem c6_zero_exit_fallbacks_witness :
    execute_claude "s" ⟨0, "", "boom"⟩ none (fun _ _ _ => none) =
      .ok ("Done", 0, "s") ∧
    execute_claude "s" ⟨0, "notjson", ""⟩ none (fun _ _ _ => none) =
      .ok (pyStripS "notjson", 0, "s") :=
  ⟨(c6_zero_exit_fallbacks "s" ⟨0, "", "boom"⟩ none (fun _ _ _ => none) rfl).1
      (by decide),
   (c6_zero_exit_fallbacks "s" ⟨0, "notjson", ""⟩ none (fun _ _ _ => none) rfl).2
      (by decide) rfl⟩

/-- C7: on non-zero exit, a recognized out-of-memory stderr signature maps
to the fixed remediation message instructing a session reset — independent
of the raw stderr; otherwise the raised message carries the stderr text
truncated beyond the fixed ceiling of 521 characters; an empty stderr maps
to "Unknown error". -/
theorem c7_error_classification (sid : String) (pr : ProcResult)
    (decoded : Option Json) (fmt : Json → Json → Option Json → Option String)
    (h0 : pr.returncode ≠ 0) :
    (hasOOMSignature (stderrMsg pr.stderr) = true →
      execute_claude sid pr decoded fmt =
        .error ("Execution failed: " ++ MSG_OOM)) ∧
    (hasOOMSignature (stderrMsg pr.stderr) = false →
      execute_claude sid pr decoded fmt =
        .error ("Execution failed: " ++
          ("Claude Code failed: " ++ truncateError (stderrMsg pr.stderr)))) ∧
    (pr.stderr = "" → stderrMsg pr.stderr = "Unknown error") ∧
    (∀ m : String, (truncateError m).toList.length ≤ 521) := by
  refine ⟨?_, ?_, ?_, ?_⟩
  · intro hoom; simp [execute_claude, h0, hoom]
  · intro hno; simp [execute_claude, h0, hno]
  · intro he; simp [stderrMsg, he]
  · intro m
    by_cases hlen : m.toList.length > 500
    · simp only [truncateError, if_pos hlen]
      have : (String.mk (m.toList.take 500) ++ "...\n(error truncated)").toList =
          m.toList.take 500 ++ "...\n(error truncated)".toList := by
        simp [String.toList]
      rw [this]
      rw [List.length_append, List.length_take]
      have : "...\n(error truncated)".toList.length = 21 := by decide
      omega
    · simp only [truncateError, if_neg hlen]
      omega

/-- C7 witness: the OOM signature, a short plain error, and empty stderr. -/
theorem c7_error_classification_witness :
    execute_claude "s" ⟨1, "", "FATAL ERROR: heap out of memory"⟩ none
        (fun _ _ _ => none) = .error ("Execution failed: " ++ MSG_OOM) ∧
    execute_claude "s" ⟨1, "", "bad"⟩ none (fun _ _ _ => none) =
      .error ("Execution failed: " ++
        ("Claude Code failed: " ++ truncateError (stderrMsg "bad"))) ∧
    stderrMsg "" = "Unknown error" :=
  ⟨(c7_error_classification "s" ⟨1, "", "FATAL ERROR: heap out of memory"⟩ none
      (fun _ _ _ => none) (by decide)).1 (by decide),
   (c7_error_classification "s" ⟨1, "", "bad"⟩ none
      (fun _ _ _ => none) (by decide)).2.1 (by decide),
   (c7_error_classification "s" ⟨1, "", ""⟩ none
      (fun _ _ _ => none) (by decide)).2.2.1 rfl⟩

/-! ## `telegram/output.py` — `split_into_chunks`

The splitter works on code points (`List Char`).  The backtick character is
written `Char.ofNat 96`. -/

/-- The backtick character. -/
def bq : Char := Char.ofNat 96

/-- Python `s.count('```')`: greedy non-overlapping count of fence
markers. -/
def countTB : List Char → Nat
  | c1 :: c2 :: c3 :: rest =>
    if c1 = bq ∧ c2 = bq ∧ c3 = bq then countTB rest + 1
    else countTB (c2 :: c3 :: rest)
  | _ => 0

/-- Whether position `i` of `s` holds a newline. -/
def isNLAt (s : List Char) (i : Nat) : Bool := s.get? i == some '\n'

/-- Python `s.rfind('\n\n', 0, bound)`: the largest `i` with `i + 2 ≤ bound`
such that positions `i, i+1` hold newlines (`none` = `-1`). -/
def rfind2NL (s : List Char) (bound : Nat) : Option Nat :=
  (List.range (bound - 1)).reverse.find? (fun i => isNLAt s i && isNLAt s (i + 1))

/-- Python `s.rfind('\n', 0, bound)`. -/
def rfindNL (s : List Char) (bound : Nat) : Option Nat :=
  (List.range bound).reverse.find? (fun i => isNLAt s i)

/-- The single-newline fallback for the split position
(`output.py` lines 48-52). -/
def splitPosNL (maxLength : Nat) (remaining : List Char) : Nat :=
  match rfindNL remaining maxLength with
  | some j => if countTB (remaining.take j) % 2 = 0 then j else maxLength
  | none => maxLength

/-- The chosen split position of one loop iteration
(`output.py` lines 38-52): the last double newline before the limit if the
prefix fence count there is even, else the last single newline under the
same condition, else the hard cut at the limit. -/
def split_pos (maxLength : Nat) (remaining : List Char) : Nat :=
  match rfind2NL remaining maxLength with
  | some i =>
    if countTB (remaining.take i) % 2 = 0 then i else splitPosNL maxLength remaining
  | none => splitPosNL maxLength remaining

/-- The fence marker. -/
def fenceTok : List Char := [bq, bq, bq]

/-- One iteration of the `while` loop of `split_into_chunks`
(`output.py` lines 37-68) on a remainder longer than the limit: returns the
emitted chunk and the new remainder. -/
def splitStep (maxLength : Nat) (remaining : List Char) : List Char × List Char :=
  let p := split_pos maxLength remaining
  let inside := countTB (remaining.take p) % 2 = 1
  let chunk0 := pyRstrip (remaining.take p)
  let chunk := if inside then chunk0 ++ '\n' :: fenceTok else chunk0
  let rest0 := pyLstrip (remaining.drop p)
  let rest := if inside ∧ rest0 ≠ [] then fenceTok ++ '\n' :: rest0 else rest0
  (chunk, rest)

/-- The `while remaining:` loop, fuel-indexed (the Python loop does not
terminate for every pathological limit, e.g. `max_length = 4` on
"```\\nabcdefgh"; the fuel bounds the number of iterations modelled). -/
def splitChunksFuel (maxLength : Nat) : Nat → List Char → List (List Char)
  | 0, _ => []
  | fuel + 1, remaining =>
    if remaining = [] then []
    else if remaining.length ≤ maxLength then [remaining]
    else
      (splitStep maxLength remaining).1 ::
        splitChunksFuel maxLength fuel (splitStep maxLength remaining).2

/-- `split_into_chunks` (`telegram/output.py`), with fuel `length + 1`
(enough for every terminating run whose remainder shrinks each
iteration). -/
def split_into_chunks (text : List Char) (maxLength : Nat) : List (List Char) :=
  splitChunksFuel maxLength (text.length + 1) text

/-- Whether the modelled loop reaches its exit (`remaining` empty or not
longer than the limit) within the given fuel. -/
def runEnds (maxLength : Nat) : Nat → List Char → Bool
  | 0, _ => false
  | fuel + 1, remaining =>
    if remaining = [] then true
    else if remaining.length ≤ maxLength then true
    else runEnds maxLength fuel (splitStep maxLength remaining).2

/-- Whether every split taken during the run is additive for the greedy
fence count (no fence marker is cut through by a hard cut). -/
def additiveRun (maxLength : Nat) : Nat → List Char → Bool
  | 0, _ => true
  | fuel + 1, remaining =>
    if remaining = [] then true
    else if remaining.length ≤ maxLength then true
    else
      decide (countTB (remaining.take (split_pos maxLength remaining)) +
        countTB (remaining.drop (split_pos maxLength remaining)) =
          countTB remaining) &&
      additiveRun maxLength fuel (splitStep maxLength remaining).2

theorem countTB_cons_ne {c : Char} (hc : ¬ c = bq) (t : List Char) :
    countTB (c :: t) = countTB t := by
  match t with
  | [] => rfl
  | [a] => rfl
  | a :: b :: rest =>
    rw [countTB]
    rw [if_neg (by intro h; exact hc h.1)]

theorem countTB_triple (t : List Char) :
    countTB (bq :: bq :: bq :: t) = countTB t + 1 := by
  rw [countTB, if_pos ⟨rfl, rfl, rfl⟩]

theorem countTB_no_bq : ∀ (w : List Char), (∀ c ∈ w, ¬ c = bq) → countTB w = 0 := by
  intro w
  induction w with
  | nil => intro _; rfl
  | cons c t ih =>
    intro h
    rw [countTB_cons_ne (h c (List.mem_cons_self c t))]
    exact ih (fun x hx => h x (List.mem_cons_of_mem _ hx))

theorem countTB_cons_nobq_tail (a : Char) (w : List Char)
    (h : ∀ c ∈ w, ¬ c = bq) : countTB (a :: w) = 0 := by
  match w with
  | [] => rfl
  | [d] => rfl
  | d :: e :: rest =>
    rw [countTB, if_neg (by
      intro hcon
      exact h d (List.mem_cons_self d (e :: rest)) hcon.2.1)]
    exact countTB_no_bq (d :: e :: rest) h

theorem countTB_prefix_nobq : ∀ (w x : List Char), (∀ c ∈ w, ¬ c = bq) →
    countTB (w ++ x) = countTB x := by
  intro w x
  induction w with
  | nil => intro _; rfl
  | cons c t ih =>
    intro h
    rw [List.cons_append, countTB_cons_ne (h c (List.mem_cons_self c t))]
    exact ih (fun y hy => h y (List.mem_cons_of_mem _ hy))

theorem countTB_append_nobq (x w : List Char) (h : ∀ c ∈ w, ¬ c = bq) :
    countTB (x ++ w) = countTB x := by
  induction x using countTB.induct with
  | case1 c1 c2 c3 rest hcond ih =>
    obtain ⟨h1, h2, h3⟩ := hcond
    subst h1; subst h2; subst h3
    rw [List.cons_append, List.cons_append, List.cons_append,
      countTB_triple, countTB_triple, ih]
  | case2 c1 c2 c3 rest hcond ih =>
    rw [List.cons_append, List.cons_append, List.cons_append]
    rw [countTB, if_neg hcond]
    rw [countTB, if_neg hcond]
    rw [← List.cons_append, ← List.cons_append]
    exact ih
  | case3 x hx =>
    match x with
    | [] => exact countTB_no_bq w h
    | [a] => exact countTB_cons_nobq_tail a w h
    | [a, b] =>
      rw [List.cons_append, List.cons_append, List.nil_append]
      cases w with
      | nil => rfl
      | cons d w' =>
        rw [countTB, if_neg (by
          intro hcon
          exact h d (List.mem_cons_self d w') hcon.2.2)]
        exact countTB_cons_nobq_tail b (d :: w') h
    | a :: b :: c :: rest =>
      exact absurd rfl (fun h => hx a b c rest h)

theorem countTB_cons_sep (a : Char) {c : Char} (hc : ¬ c = bq) (y : List Char) :
    countTB (a :: c :: y) = countTB y := by
  cases y with
  | nil => rfl
  | cons e y' =>
    rw [countTB, if_neg (fun hcon => hc hcon.2.1)]
    exact countTB_cons_ne hc (e :: y')

theorem countTB_append_sep (x : List Char) {c : Char} (hc : ¬ c = bq)
    (y : List Char) : countTB (x ++ c :: y) = countTB x + countTB y := by
  induction x using countTB.induct with
  | case1 c1 c2 c3 rest hcond ih =>
    obtain ⟨h1, h2, h3⟩ := hcond
    subst h1; subst h2; subst h3
    rw [List.cons_append, List.cons_append, List.cons_append,
      countTB_triple, countTB_triple, ih]
    omega
  | case2 c1 c2 c3 rest hcond ih =>
    rw [List.cons_append, List.cons_append, List.cons_append]
    rw [countTB, if_neg hcond]
    conv_rhs => rw [countTB, if_neg hcond]
    rw [← List.cons_append, ← List.cons_append]
    exact ih
  | case3 x hx =>
    match x with
    | [] =>
      rw [List.nil_append, countTB_cons_ne hc]
      have h0 : countTB ([] : List Char) = 0 := rfl
      omega
    | [a] =>
      rw [List.cons_append, List.nil_append, countTB_cons_sep a hc]
      have h0 : countTB [a] = 0 := rfl
      omega
    | [a, b] =>
      rw [List.cons_append, List.cons_append, List.nil_append]
      rw [countTB, if_neg (fun hcon => hc hcon.2.2)]
      rw [countTB_cons_sep b hc]
      have h0 : countTB [a, b] = 0 := rfl
      omega
    | a :: b :: c' :: rest =>
      exact absurd rfl (fun h => hx a b c' rest h)

theorem ws_ne_bq {c : Char} (h : pyIsWS c = true) : ¬ c = bq := by
  intro he
  rw [he] at h
  exact absurd h (by decide)

theorem countTB_pyRstrip (x : List Char) : countTB (pyRstrip x) = countTB x := by
  obtain ⟨w, hw, hws⟩ := pyRstrip_decomp x
  conv_rhs => rw [hw]
  rw [countTB_append_nobq _ w (fun c hc => ws_ne_bq (hws c hc))]

theorem countTB_pyLstrip (x : List Char) : countTB (pyLstrip x) = countTB x := by
  obtain ⟨w, hw, hws⟩ := pyLstrip_decomp x
  conv_rhs => rw [hw]
  rw [countTB_prefix_nobq w _ (fun c hc => ws_ne_bq (hws c hc))]

theorem splitStep_parity {L : Nat} {r : List Char}
    (hadd : countTB (r.take (split_pos L r)) +
      countTB (r.drop (split_pos L r)) = countTB r)
    (heven : countTB r % 2 = 0) :
    countTB (splitStep L r).1 % 2 = 0 ∧ countTB (splitStep L r).2 % 2 = 0 := by
  have h1 : (splitStep L r).1 =
      if countTB (r.take (split_pos L r)) % 2 = 1 then
        pyRstrip (r.take (split_pos L r)) ++ '\n' :: fenceTok
      else pyRstrip (r.take (split_pos L r)) := rfl
  have h2 : (splitStep L r).2 =
      if countTB (r.take (split_pos L r)) % 2 = 1 ∧
          pyLstrip (r.drop (split_pos L r)) ≠ [] then
        fenceTok ++ '\n' :: pyLstrip (r.drop (split_pos L r))
      else pyLstrip (r.drop (split_pos L r)) := rfl
  have hnl : ¬ ('\n' : Char) = bq := by decide
  have hrs := countTB_pyRstrip (r.take (split_pos L r))
  have hls := countTB_pyLstrip (r.drop (split_pos L r))
  have hfc : countTB ('\n' :: fenceTok) = 1 := by decide
  by_cases hin : countTB (r.take (split_pos L r)) % 2 = 1
  · constructor
    · rw [h1, if_pos hin, countTB_append_sep _ hnl]
      have : countTB fenceTok = 1 := by decide
      omega
    · rw [h2]
      by_cases hne : pyLstrip (r.drop (split_pos L r)) ≠ []
      · rw [if_pos ⟨hin, hne⟩]
        have : countTB (fenceTok ++ '\n' :: pyLstrip (r.drop (split_pos L r))) =
            countTB (pyLstrip (r.drop (split_pos L r))) + 1 := by
          show countTB (bq :: bq :: bq :: '\n' :: _) = _
          rw [countTB_triple, countTB_cons_ne hnl]
        omega
      · push_neg at hne
        rw [if_neg (fun hcon => hcon.2 hne), hne]
        decide
  · constructor
    · rw [h1, if_neg hin]
      omega
    · rw [h2, if_neg (fun hcon => hin hcon.1)]
      omega

theorem chunks_even (L : Nat) : ∀ (fuel : Nat) (r : List Char),
    additiveRun L fuel r = true → countTB r % 2 = 0 →
    ∀ c ∈ splitChunksFuel L fuel r, countTB c % 2 = 0 := by
  intro fuel
  induction fuel with
  | zero => intro r _ _ c hc; simp [splitChunksFuel] at hc
  | succ fuel ih =>
    intro r hadd heven c hc
    by_cases hnil : r = []
    · simp [splitChunksFuel, hnil] at hc
    · by_cases hlen : r.length ≤ L
      · simp only [splitChunksFuel, if_neg hnil, if_pos hlen] at hc
        rw [List.mem_singleton] at hc
        subst hc
        exact heven
      · simp only [splitChunksFuel, if_neg hnil, if_neg hlen] at hc
        simp only [additiveRun, if_neg hnil, if_neg hlen, Bool.and_eq_true,
          decide_eq_true_eq] at hadd
        obtain ⟨haddstep, haddrec⟩ := hadd
        obtain ⟨hch, hrt⟩ := splitStep_parity haddstep heven
        rcases List.mem_cons.mp hc with h | h
        · subst h; exact hch
        · exact ih (splitStep L r).2 haddrec hrt c h

theorem splitChunksFuel_nil (L fuel : Nat) : splitChunksFuel L fuel [] = [] := by
  cases fuel <;> simp [splitChunksFuel]

/-- How a chunk list reassembles to a text: consecutive chunks are glued by
reinserting the whitespace the splitter trimmed at that boundary; at a
boundary where the splitter closed and reopened a fence, the appended
closing fence is stripped from the chunk and the prepended reopening fence
from the remainder of the text before gluing. -/
inductive Reassembles : List (List Char) → List Char → Prop
  | nil : Reassembles [] []
  | last (c : List Char) : Reassembles [c] c
  | step (core w rest : List Char) (cs : List (List Char))
      (hw : ∀ ch ∈ w, pyIsWS ch = true) (h : Reassembles cs rest) :
      Reassembles (core :: cs) (core ++ w ++ rest)
  | stepFence (core w rest : List Char) (cs : List (List Char))
      (hw : ∀ ch ∈ w, pyIsWS ch = true)
      (h : Reassembles cs (fenceTok ++ '\n' :: rest)) :
      Reassembles ((core ++ '\n' :: fenceTok) :: cs) (core ++ w ++ rest)
  | lastFence (core w : List Char) (hw : ∀ ch ∈ w, pyIsWS ch = true) :
      Reassembles [core ++ '\n' :: fenceTok] (core ++ w)

theorem chunks_reassemble (L : Nat) : ∀ (fuel : Nat) (r : List Char),
    runEnds L fuel r = true → Reassembles (splitChunksFuel L fuel r) r := by
  intro fuel
  induction fuel with
  | zero => intro r hre; simp [runEnds] at hre
  | succ fuel ih =>
    intro r hre
    by_cases hnil : r = []
    · subst hnil
      simp only [splitChunksFuel, if_pos rfl]
      exact Reassembles.nil
    · by_cases hlen : r.length ≤ L
      · simp only [splitChunksFuel, if_neg hnil, if_pos hlen]
        exact Reassembles.last r
      · simp only [splitChunksFuel, if_neg hnil, if_neg hlen]
        simp only [runEnds, if_neg hnil, if_neg hlen] at hre
        obtain ⟨w1, hw1, hws1⟩ := pyRstrip_decomp (r.take (split_pos L r))
        obtain ⟨w2, hw2, hws2⟩ := pyLstrip_decomp (r.drop (split_pos L r))
        have hww : ∀ ch ∈ w1 ++ w2, pyIsWS ch = true := by
          intro ch hch
          rcases List.mem_append.mp hch with h | h
          · exact hws1 ch h
          · exact hws2 ch h
        have hr : r = pyRstrip (r.take (split_pos L r)) ++ (w1 ++ w2) ++
            pyLstrip (r.drop (split_pos L r)) := by
          conv_lhs => rw [← List.take_append_drop (split_pos L r) r]
          conv_lhs => rw [hw1, hw2]
          simp [List.append_assoc]
        by_cases hin : countTB (r.take (split_pos L r)) % 2 = 1
        · by_cases hne : pyLstrip (r.drop (split_pos L r)) = []
          · have hstep1 : (splitStep L r).1 =
                pyRstrip (r.take (split_pos L r)) ++ '\n' :: fenceTok := by
              show (if countTB (r.take (split_pos L r)) % 2 = 1 then _ else _) = _
              rw [if_pos hin]
            have hstep2 : (splitStep L r).2 = [] := by
              show (if countTB (r.take (split_pos L r)) % 2 = 1 ∧
                  pyLstrip (r.drop (split_pos L r)) ≠ [] then _ else _) = _
              rw [if_neg (fun hcon => hcon.2 hne), hne]
            have hfin : Reassembles
                [pyRstrip (r.take (split_pos L r)) ++ '\n' :: fenceTok]
                (pyRstrip (r.take (split_pos L r)) ++ (w1 ++ w2)) :=
              Reassembles.lastFence _ (w1 ++ w2) hww
            rw [hne, List.append_nil] at hr
            rw [← hr] at hfin
            rw [hstep1, hstep2, splitChunksFuel_nil]
            exact hfin
          · have hstep1 : (splitStep L r).1 =
                pyRstrip (r.take (split_pos L r)) ++ '\n' :: fenceTok := by
              show (if countTB (r.take (split_pos L r)) % 2 = 1 then _ else _) = _
              rw [if_pos hin]
            have hstep2 : (splitStep L r).2 =
                fenceTok ++ '\n' :: pyLstrip (r.drop (split_pos L r)) := by
              show (if countTB (r.take (split_pos L r)) % 2 = 1 ∧
                  pyLstrip (r.drop (split_pos L r)) ≠ [] then _ else _) = _
              rw [if_pos ⟨hin, hne⟩]
            rw [hstep2] at hre
            have hfin : Reassembles
                ((pyRstrip (r.take (split_pos L r)) ++ '\n' :: fenceTok) ::
                  splitChunksFuel L fuel
                    (fenceTok ++ '\n' :: pyLstrip (r.drop (split_pos L r))))
                (pyRstrip (r.take (split_pos L r)) ++ (w1 ++ w2) ++
                  pyLstrip (r.drop (split_pos L r))) :=
              Reassembles.stepFence _ (w1 ++ w2) _ _ hww (ih _ hre)
            rw [← hr] at hfin
            rw [hstep1, hstep2]
            exact hfin
        · have hstep1 : (splitStep L r).1 = pyRstrip (r.take (split_pos L r)) := by
            show (if countTB (r.take (split_pos L r)) % 2 = 1 then _ else _) = _
            rw [if_neg hin]
          have hstep2 : (splitStep L r).2 = pyLstrip (r.drop (split_pos L r)) := by
            show (if countTB (r.take (split_pos L r)) % 2 = 1 ∧
                pyLstrip (r.drop (split_pos L r)) ≠ [] then _ else _) = _
            rw [if_neg (fun hcon => hin hcon.1)]
          rw [hstep2] at hre
          have hfin : Reassembles
              (pyRstrip (r.take (split_pos L r)) ::
                splitChunksFuel L fuel (pyLstrip (r.drop (split_pos L r))))
              (pyRstrip (r.take (split_pos L r)) ++ (w1 ++ w2) ++
                pyLstrip (r.drop (split_pos L r))) :=
            Reassembles.step _ (w1 ++ w2) _ _ hww (ih _ hre)
          rw [← hr] at hfin
          rw [hstep1, hstep2]
          exact hfin

theorem find?_reverse_range_max {p : Nat → Bool} :
    ∀ {n i : Nat}, (List.range n).reverse.find? p = some i →
      p i = true ∧ i < n ∧ ∀ j, i < j → j < n → p j = false := by
  intro n
  induction n with
  | zero => intro i h; simp at h
  | succ m ih =>
    intro i h
    rw [List.range_succ, List.reverse_append] at h
    simp only [List.reverse_singleton, List.singleton_append] at h
    by_cases hp : p m
    · rw [List.find?_cons_of_pos _ hp] at h
      rw [Option.some_inj] at h
      subst h
      exact ⟨hp, by omega, fun j hij hj => absurd hj (by omega)⟩
    · rw [List.find?_cons_of_neg _ (by simpa using hp)] at h
      obtain ⟨hpi, him, hmax⟩ := ih h
      refine ⟨hpi, by omega, ?_⟩
      intro j hij hj
      by_cases hjm : j = m
      · subst hjm
        simpa using hp
      · exact hmax j hij (by omega)

theorem rfind2NL_spec {s : List Char} {bound i : Nat}
    (h : rfind2NL s bound = some i) :
    isNLAt s i = true ∧ isNLAt s (i + 1) = true ∧ i + 2 ≤ bound ∧
      ∀ j, i < j → j + 2 ≤ bound →
        ¬(isNLAt s j = true ∧ isNLAt s (j + 1) = true) := by
  obtain ⟨hp, hlt, hmax⟩ := find?_reverse_range_max h
  simp only [Bool.and_eq_true] at hp
  refine ⟨hp.1, hp.2, by omega, ?_⟩
  intro j hij hj hcon
  have hfalse := hmax j hij (by omega)
  rw [hcon.1, hcon.2] at hfalse
  simp at hfalse

theorem rfindNL_spec {s : List Char} {bound j : Nat}
    (h : rfindNL s bound = some j) :
    isNLAt s j = true ∧ j + 1 ≤ bound ∧
      ∀ k, j < k → k + 1 ≤ bound → isNLAt s k = false := by
  obtain ⟨hp, hlt, hmax⟩ := find?_reverse_range_max h
  exact ⟨hp, by omega, fun k hk hkb => hmax k hk (by omega)⟩

theorem splitPosNL_cases (L : Nat) (r : List Char) :
    splitPosNL L r = L ∨
      (isNLAt r (splitPosNL L r) = true ∧ splitPosNL L r < L ∧
        countTB (r.take (splitPosNL L r)) % 2 = 0) := by
  cases hn : rfindNL r L with
  | some j =>
    by_cases hp : countTB (r.take j) % 2 = 0
    · right
      obtain ⟨hnl, hb, _⟩ := rfindNL_spec hn
      simp only [splitPosNL, hn, if_pos hp]
      exact ⟨hnl, by omega, hp⟩
    · left
      simp only [splitPosNL, hn, if_neg hp]
  | none =>
    left
    simp only [splitPosNL, hn]

theorem split_pos_cases (L : Nat) (r : List Char) :
    split_pos L r = L ∨
      (isNLAt r (split_pos L r) = true ∧ split_pos L r < L ∧
        countTB (r.take (split_pos L r)) % 2 = 0) := by
  cases h2 : rfind2NL r L with
  | some i =>
    by_cases hp : countTB (r.take i) % 2 = 0
    · right
      obtain ⟨hnl, _, hb, _⟩ := rfind2NL_spec h2
      simp only [split_pos, h2, if_pos hp]
      exact ⟨hnl, by omega, hp⟩
    · simp only [split_pos, h2, if_neg hp]
      exact splitPosNL_cases L r
  | none =>
    simp only [split_pos, h2]
    exact splitPosNL_cases L r

/-- C4 counterexample: (i) the empty text (length 0 ≤ 5) yields zero
chunks, not exactly one equal to the input; (ii) splitting
"aaa  \n\nbbb" at limit 5 yields the chunks "aaa" and "bbb", no fence
token was added, and the two spaces of the original text appear in no
chunk, so no reassembly of the chunks that only strips added fence tokens
can reproduce the original text; (iii) on the balanced-fence text
"abcdefghi```zzz``` end" at limit 11 the hard cut falls inside a fence
marker and the produced chunk "`zzz``` end" contains an odd number of
fence markers — an unterminated code fence. -/
theorem c4_split_into_chunks_counterexample :
    split_into_chunks [] 5 = [] ∧
    (split_into_chunks ("aaa  \n\nbbb".toList) 5 =
      ["aaa".toList, "bbb".toList] ∧
      ' ' ∈ "aaa  \n\nbbb".toList ∧
      ∀ c ∈ split_into_chunks ("aaa  \n\nbbb".toList) 5, ' ' ∉ c) ∧
    (countTB ("abcdefghi```zzz``` end".toList) % 2 = 0 ∧
      ∃ c ∈ split_into_chunks ("abcdefghi```zzz``` end".toList) 11,
        countTB c % 2 = 1) := by
  refine ⟨by decide, ⟨by decide, by decide, by decide⟩, by decide, ?_⟩
  exact ⟨"`zzz``` end".toList, by decide, by decide⟩

/-- C4 (amended): for the chunk splitter with limit `L`: (1) a non-empty
text of length at most `L` yields exactly one chunk equal to the input
(the empty text yields no chunk); (2) the double-newline candidate is the
last double newline wholly before `L`, and it is chosen as the split
position whenever the fence count of the prefix before it is even;
(3) every split position is either such a newline boundary strictly before
`L` with an even prefix fence count, or the hard cut at `L`; (4) provided
the text's fence count is even and no chosen split cuts through a fence
marker (the greedy fence count is additive at every chosen split), every
produced chunk contains an even number of fence markers — a fence left
open in a chunk is closed at its end and reopened at the start of the next
chunk; (5) whenever the loop terminates, the original text is reassembled
from the chunks by stripping the added closing/reopening fence tokens and
restoring the whitespace trimmed at each boundary. -/
theorem c4_split_into_chunks_amended :
    (∀ (L : Nat) (t : List Char), t ≠ [] → t.length ≤ L →
      split_into_chunks t L = [t]) ∧
    (∀ (L : Nat) (r : List Char) (i : Nat), rfind2NL r L = some i →
      isNLAt r i = true ∧ isNLAt r (i + 1) = true ∧ i + 2 ≤ L ∧
        (∀ j, i < j → j + 2 ≤ L →
          ¬(isNLAt r j = true ∧ isNLAt r (j + 1) = true)) ∧
        (countTB (r.take i) % 2 = 0 → split_pos L r = i)) ∧
    (∀ (L : Nat) (r : List Char),
      split_pos L r = L ∨
        (isNLAt r (split_pos L r) = true ∧ split_pos L r < L ∧
          countTB (r.take (split_pos L r)) % 2 = 0)) ∧
    (∀ (L fuel : Nat) (r : List Char), additiveRun L fuel r = true →
      countTB r % 2 = 0 → ∀ c ∈ splitChunksFuel L fuel r, countTB c % 2 = 0) ∧
    (∀ (L : Nat) (t : List Char), runEnds L (t.length + 1) t = true →
      Reassembles (split_into_chunks t L) t) := by
  refine ⟨?_, ?_, split_pos_cases, chunks_even, ?_⟩
  · intro L t hne hlen
    simp [split_into_chunks, splitChunksFuel, hne, hlen]
  · intro L r i h
    obtain ⟨h1, h2, h3, h4⟩ := rfind2NL_spec h
    refine ⟨h1, h2, h3, h4, ?_⟩
    intro hp
    simp only [split_pos, h, if_pos hp]
  · intro L t hend
    exact chunks_reassemble L (t.length + 1) t hend

/-- C4 witness: the short text "a" is returned whole; the balanced fence
text "```a\nb```" splits (at limit 4, where every cut is additive) into
chunks whose fence counts are all even; "aaa  \n\nbbb" terminates within
its fuel and reassembles. -/
theorem c4_split_into_chunks_amended_witness :
    split_into_chunks ['a'] 5 = [['a']] ∧
    (∀ c ∈ splitChunksFuel 4 15 ("```a\nb```".toList),
      countTB c % 2 = 0) ∧
    Reassembles (split_into_chunks ("aaa  \n\nbbb".toList) 5)
      ("aaa  \n\nbbb".toList) :=
  ⟨c4_split_into_chunks_amended.1 5 ['a'] (by decide) (by decide),
   c4_split_into_chunks_amended.2.2.2.1 4 15 ("```a\nb```".toList)
     (by decide) (by decide),
   c4_split_into_chunks_amended.2.2.2.2 5 ("aaa  \n\nbbb".toList) (by decide)⟩
